import Mathlib

/-!
Verification of the inputlayer object-logic-mapper core against its
specification.  The Python sources are shallowly embedded: pure functions
become Lean functions, the mutable variable environment becomes explicit
state passing, fallible code returns `Except`, and the external
knowledge-graph store consumed by the migration executor is modelled by
the rows of its reserved migrations relation together with the command
log the executor emits.

Sources embedded here:
  - inputlayer/_naming.py            (snake_to_camel, column_to_variable)
  - inputlayer/types.py              (TYPE_MAP, python_type_to_datalog)
  - inputlayer/compiler.py           (_VarEnv, compile_value, compile_expr,
                                      compile_bool_expr, compile_or_branches,
                                      compile_schema, compile_conditional_delete,
                                      compile_query)
  - inputlayer/migrations/operations.py (the eight Operation variants)
  - inputlayer/migrations/recorder.py   (MigrationRecorder)
  - inputlayer/migrations/executor.py   (apply/revert/migrate/revert_to)
  - inputlayer/migrations/autodetector.py (detect_changes)
-/

namespace IL

/-! ## Decimal rendering of integers

Python renders numbers in commands and variable suffixes with `str(n)` /
f-strings, i.e. decimal digits.  We embed that rendering directly so that
it stays executable and so that its injectivity can be proved. -/

/-- Character for a single decimal digit `d ≤ 9`. -/
def decDigitChar (d : Nat) : Char := Char.ofNat (48 + d)

/-- Fuelled decimal digit expansion (structural recursion so that it
reduces inside the kernel; the fuel is always ample). -/
def decDigitsAux : Nat → Nat → List Char
  | 0, _ => []
  | fuel + 1, n =>
    if n < 10 then [decDigitChar n]
    else decDigitsAux fuel (n / 10) ++ [decDigitChar (n % 10)]

/-- Decimal digit list of a natural number, most significant first. -/
def decDigits (n : Nat) : List Char := decDigitsAux (n + 1) n

theorem decDigitsAux_congr (n : Nat) :
    ∀ f g, n < f → n < g → decDigitsAux f n = decDigitsAux g n := by
  induction n using Nat.strong_induction_on with
  | _ n ih =>
    intro f g hf hg
    cases f with
    | zero => omega
    | succ f' =>
      cases g with
      | zero => omega
      | succ g' =>
        simp only [decDigitsAux]
        by_cases h : n < 10
        · rw [if_pos h, if_pos h]
        · rw [if_neg h, if_neg h]
          have hlt : n / 10 < n := Nat.div_lt_self (by omega) (by omega)
          rw [ih (n / 10) hlt f' g' (by omega) (by omega)]

theorem decDigits_lt (n : Nat) (h : n < 10) : decDigits n = [decDigitChar n] := by
  simp [decDigits, decDigitsAux, h]

theorem decDigits_ge (n : Nat) (h : ¬ n < 10) :
    decDigits n = decDigits (n / 10) ++ [decDigitChar (n % 10)] := by
  have step : decDigits n = decDigitsAux n (n / 10) ++ [decDigitChar (n % 10)] := by
    show decDigitsAux (n + 1) n = _
    rw [show decDigitsAux (n + 1) n =
      if n < 10 then [decDigitChar n]
      else decDigitsAux n (n / 10) ++ [decDigitChar (n % 10)] from rfl, if_neg h]
  rw [step]
  have hlt : n / 10 < n := Nat.div_lt_self (by omega) (by omega)
  rw [decDigitsAux_congr (n / 10) n (n / 10 + 1) hlt (by omega)]
  rfl

/-- Decimal string of a natural number, as Python `str(n)` renders it. -/
def decRepr (n : Nat) : String := String.mk (decDigits n)

/-- Decimal string of an integer, as Python `str(i)` renders it. -/
def intRepr : Int → String
  | Int.ofNat n => decRepr n
  | Int.negSucc n => "-" ++ decRepr (n + 1)

theorem char_toNat_ofNat_valid (n : Nat) (h : n.isValidChar) :
    (Char.ofNat n).toNat = n := by
  simp [Char.ofNat, h, Char.ofNatAux, Char.toNat, UInt32.toNat, UInt32.ofNat']

theorem decDigitChar_toNat (d : Nat) (hd : d ≤ 9) :
    (decDigitChar d).toNat = 48 + d := by
  have hv : (48 + d).isValidChar := Or.inl (by omega)
  exact char_toNat_ofNat_valid (48 + d) hv

theorem decDigitChar_injOn (a b : Nat) (ha : a ≤ 9) (hb : b ≤ 9)
    (h : decDigitChar a = decDigitChar b) : a = b := by
  have h1 := decDigitChar_toNat a ha
  have h2 := decDigitChar_toNat b hb
  rw [h] at h1
  omega

theorem decDigits_ne_nil (n : Nat) : decDigits n ≠ [] := by
  by_cases h : n < 10
  · rw [decDigits_lt n h]; simp
  · rw [decDigits_ge n h]; simp

theorem decDigits_digit (n : Nat) : ∀ c ∈ decDigits n, 48 ≤ c.toNat ∧ c.toNat ≤ 57 := by
  induction n using Nat.strong_induction_on with
  | _ n ih =>
    by_cases h : n < 10
    · rw [decDigits_lt n h]
      intro c hc
      simp at hc
      subst hc
      have := decDigitChar_toNat n (by omega)
      omega
    · rw [decDigits_ge n h]
      intro c hc
      rw [List.mem_append] at hc
      rcases hc with hc | hc
      · exact ih (n / 10) (Nat.div_lt_self (by omega) (by omega)) c hc
      · simp at hc
        subst hc
        have h10 : n % 10 ≤ 9 := by omega
        have := decDigitChar_toNat (n % 10) h10
        omega

theorem decDigits_no_underscore (n : Nat) : ∀ c ∈ decDigits n, c ≠ '_' := by
  intro c hc he
  have := decDigits_digit n c hc
  subst he
  simp at this

theorem decDigits_injective (m n : Nat) (h : decDigits m = decDigits n) : m = n := by
  induction m using Nat.strong_induction_on generalizing n with
  | _ m ih =>
    by_cases hm : m < 10
    · by_cases hn : n < 10
      · rw [decDigits_lt m hm, decDigits_lt n hn] at h
        simp at h
        exact decDigitChar_injOn m n (by omega) (by omega) h
      · rw [decDigits_lt m hm, decDigits_ge n hn] at h
        cases hx : decDigits (n / 10) with
        | nil => exact absurd hx (decDigits_ne_nil (n / 10))
        | cons x xs =>
          rw [hx] at h
          have hl := congrArg List.length h
          simp only [List.length_cons, List.length_append, List.length_nil] at hl
          omega
    · by_cases hn : n < 10
      · rw [decDigits_ge m hm, decDigits_lt n hn] at h
        cases hx : decDigits (m / 10) with
        | nil => exact absurd hx (decDigits_ne_nil (m / 10))
        | cons x xs =>
          rw [hx] at h
          have hl := congrArg List.length h
          simp only [List.length_cons, List.length_append, List.length_nil] at hl
          omega
      · rw [decDigits_ge m hm, decDigits_ge n hn] at h
        have hrev := congrArg List.reverse h
        simp at hrev
        obtain ⟨hdig, hpre⟩ := hrev
        have hdiv : m / 10 = n / 10 :=
          ih (m / 10) (Nat.div_lt_self (by omega) (by omega)) (n / 10) hpre
        have hmod : m % 10 = n % 10 :=
          decDigitChar_injOn (m % 10) (n % 10) (by omega) (by omega) hdig
        omega

theorem decRepr_injective (m n : Nat) (h : decRepr m = decRepr n) : m = n := by
  apply decDigits_injective
  have := congrArg String.data h
  simpa [decRepr] using this

/-! ## Lexicographic string order

Python compares strings by code points, shorter prefixes first.  Lean's
built-in `String` order does not reduce in the kernel, so the Python
order is embedded directly. -/

/-- Code-point lexicographic `≤` on character lists (Python string `<=`). -/
def lexLe : List Char → List Char → Bool
  | [], _ => true
  | _ :: _, [] => false
  | a :: as, b :: bs =>
    if a.toNat < b.toNat then true
    else if a.toNat = b.toNat then lexLe as bs
    else false

/-- Python string `<=`, as a Bool-valued comparison. -/
def strLeB (a b : String) : Bool := lexLe a.data b.data

theorem lexLe_total (l₁ l₂ : List Char) : lexLe l₁ l₂ = true ∨ lexLe l₂ l₁ = true := by
  induction l₁ generalizing l₂ with
  | nil => left; rfl
  | cons a as ih =>
    cases l₂ with
    | nil => right; rfl
    | cons b bs =>
      simp only [lexLe]
      rcases Nat.lt_trichotomy a.toNat b.toNat with h | h | h
      · left; simp [h]
      · rcases ih bs with h2 | h2
        · left; simp [h, h2]
        · right; simp [h.symm, h2]
      · right; simp [h]

theorem lexLe_trans (l₁ l₂ l₃ : List Char) (h₁ : lexLe l₁ l₂ = true)
    (h₂ : lexLe l₂ l₃ = true) : lexLe l₁ l₃ = true := by
  induction l₁ generalizing l₂ l₃ with
  | nil => rfl
  | cons a as ih =>
    cases l₂ with
    | nil => simp [lexLe] at h₁
    | cons b bs =>
      cases l₃ with
      | nil => simp [lexLe] at h₂
      | cons c cs =>
        simp only [lexLe] at h₁ h₂ ⊢
        split_ifs at h₁ h₂ ⊢ with hab₁ hab₂ hac₁ hac₂ <;>
          first
          | rfl
          | omega
          | (exact ih bs cs h₁ h₂)

instance strLeTotal : IsTotal String (fun a b => strLeB a b = true) :=
  ⟨fun a b => lexLe_total a.data b.data⟩

instance strLeTrans : IsTrans String (fun a b => strLeB a b = true) :=
  ⟨fun a b c => lexLe_trans a.data b.data c.data⟩

/-! ## Migration operations (migrations/operations.py)

Each variant stores the same fields as the Python dataclass and renders
the same forward/backward command lists. -/

/-- Schema fragment `col1: type1, col2: type2, …` used by relation commands. -/
def columnsFragment (columns : List (String × String)) : String :=
  String.intercalate ", " (columns.map (fun ct => ct.1 ++ ": " ++ ct.2))

/-- The eight migration operation variants of operations.py. -/
inductive Operation where
  | createRelation (name : String) (columns : List (String × String))
  | dropRelation (name : String) (columns : List (String × String))
  | createRule (name : String) (clauses : List String)
  | dropRule (name : String) (clauses : List String)
  | replaceRule (name : String) (oldClauses newClauses : List String)
  | createIndex (name relation column metric : String) (m efConstruction efSearch : Int)
  | dropIndex (name relation column metric : String) (m efConstruction efSearch : Int)
  | runDatalog (forward backward : List String)
deriving DecidableEq

/-- Rendering of the `.index create` meta command shared by the two index ops. -/
def indexCreateCommand (name relation column metric : String)
    (m efConstruction efSearch : Int) : String :=
  ".index create " ++ name ++ " on " ++ relation ++ "(" ++ column ++ ") " ++
    "type hnsw metric " ++ metric ++ " " ++
    "m " ++ intRepr m ++ " ef_construction " ++ intRepr efConstruction ++ " " ++
    "ef_search " ++ intRepr efSearch

/-- forward_commands() of each operation variant. -/
def Operation.forwardCommands : Operation → List String
  | .createRelation name columns => ["+" ++ name ++ "(" ++ columnsFragment columns ++ ")"]
  | .dropRelation name _ => [".rel drop " ++ name]
  | .createRule _ clauses => clauses
  | .dropRule name _ => [".rule drop " ++ name]
  | .replaceRule name _ newClauses => (".rule drop " ++ name) :: newClauses
  | .createIndex name relation column metric m efc efs =>
      [indexCreateCommand name relation column metric m efc efs]
  | .dropIndex name _ _ _ _ _ _ => [".index drop " ++ name]
  | .runDatalog forward _ => forward

/-- backward_commands() of each operation variant. -/
def Operation.backwardCommands : Operation → List String
  | .createRelation name _ => [".rel drop " ++ name]
  | .dropRelation name columns => ["+" ++ name ++ "(" ++ columnsFragment columns ++ ")"]
  | .createRule name _ => [".rule drop " ++ name]
  | .dropRule _ clauses => clauses
  | .replaceRule name oldClauses _ => (".rule drop " ++ name) :: oldClauses
  | .createIndex name _ _ _ _ _ _ => [".index drop " ++ name]
  | .dropIndex name relation column metric m efc efs =>
      [indexCreateCommand name relation column metric m efc efs]
  | .runDatalog _ backward => backward

/-! ## Migration metadata, recorder and executor

The loader's `MigrationInfo` dataclass carries the fields the executor
reads (its untyped `state` dict is not consumed by the executor and is
omitted).  The external store is modelled by the rows of the reserved
`__inputlayer_migrations__` relation; the recorder's emitted insert and
conditional-delete commands act on those rows exactly as the emitted
dialect specifies, and the wall-clock ISO timestamp is a parameter. -/

/-- Loaded migration metadata (loader.py MigrationInfo). -/
structure MigrationInfo where
  name : String
  number : Nat
  dependencies : List String
  operations : List Operation
deriving DecidableEq

/-- Reserved relation owned by the recorder. -/
def MIGRATION_RELATION : String := "__inputlayer_migrations__"

/-- Command executed by `MigrationRecorder.ensure_schema`. -/
def ensureSchemaCmd : String :=
  "+" ++ MIGRATION_RELATION ++ "(name: string, applied_at: string)"

/-- Command executed by `MigrationRecorder.record_applied`. -/
def recordAppliedCmd (name now : String) : String :=
  "+" ++ MIGRATION_RELATION ++ "(\"" ++ name ++ "\", \"" ++ now ++ "\")"

/-- Command executed by `MigrationRecorder.record_reverted`. -/
def recordRevertedCmd (name : String) : String :=
  "-" ++ MIGRATION_RELATION ++ "(Name, At) <- " ++
    MIGRATION_RELATION ++ "(Name, At), Name = \"" ++ name ++ "\""

/-- MigrationRecorder.get_applied: names of the recorded rows, sorted by
Python's `sorted` (ascending, stable; duplicates are kept). -/
def getApplied (rows : List (String × String)) : List String :=
  List.insertionSort (fun a b => strLeB a b = true) (rows.map Prod.fst)

/-- apply_migration: every forward command of every operation in order. -/
def applyMigration (m : MigrationInfo) : List String :=
  m.operations.flatMap Operation.forwardCommands

/-- revert_migration: backward commands, operations in reverse order. -/
def revertMigration (m : MigrationInfo) : List String :=
  m.operations.reverse.flatMap Operation.backwardCommands

/-- Loop body of `migrate` (executor.py lines 44-55).  Returns the command
log, the final recorder rows and the applied names.  The two `target`
checks of the source are both present; the second one is unreachable
because the first breaks before the target is applied. -/
def migrateLoop (now : String) (applied : List String) (target : Option String) :
    List MigrationInfo → List (String × String) →
    List String × List (String × String) × List String
  | [], rows => ([], rows, [])
  | m :: ms, rows =>
    if m.name ∈ applied then migrateLoop now applied target ms rows
    else if target = some m.name then ([], rows, [])
    else
      let cmds := applyMigration m ++ [recordAppliedCmd m.name now]
      let rows' := rows ++ [(m.name, now)]
      if target = some m.name then (cmds, rows', [m.name])
      else
        let (cs, rs, ns) := migrateLoop now applied target ms rows'
        (cmds ++ cs, rs, m.name :: ns)

/-- executor.migrate: ensure the recorder schema, read the applied set
once, then apply and record each pending migration. -/
def migrate (now : String) (migrations : List MigrationInfo)
    (rows : List (String × String)) (target : Option String) :
    List String × List (String × String) × List String :=
  let applied := getApplied rows
  let (cs, rs, ns) := migrateLoop now applied target migrations rows
  (ensureSchemaCmd :: cs, rs, ns)

/-- Loop body of `revert_to`: revert and unrecord each migration. -/
def revertLoop : List MigrationInfo → List (String × String) →
    List String × List (String × String) × List String
  | [], rows => ([], rows, [])
  | m :: ms, rows =>
    let cmds := revertMigration m ++ [recordRevertedCmd m.name]
    let rows' := rows.filter (fun r => r.1 ≠ m.name)
    let (cs, rs, ns) := revertLoop ms rows'
    (cmds ++ cs, rs, m.name :: ns)

/-- executor.revert_to: find the target, fail when absent, otherwise
revert the applied migrations strictly after it in reverse order. -/
def revertTo (migrations : List MigrationInfo) (rows : List (String × String))
    (target : String) :
    Except String (List String × List (String × String) × List String) :=
  let applied := getApplied rows
  match migrations.findIdx? (fun m => m.name = target) with
  | none => .error ("Migration " ++ target ++ " not found")
  | some targetIdx =>
    let toRevert := ((migrations.drop (targetIdx + 1)).reverse).filter
      (fun m => m.name ∈ applied)
    let (cs, rs, ns) := revertLoop toRevert rows
    .ok (ensureSchemaCmd :: cs, rs, ns)

/-! ## Claims C3, C4, C5 -/

/-- Example migrations mirroring the repository's executor tests. -/
def m1ex : MigrationInfo :=
  ⟨"0001_initial", 1, [], [.createRelation "t" [("a", "int")]]⟩

/-- Second example migration. -/
def m2ex : MigrationInfo :=
  ⟨"0002_auto", 2, [], [.createRule "r" ["+r(X) <- t(X)"]]⟩

/-- C3: `migrate` with `target = t` breaks out of its loop before applying
the migration named `t` (the pre-apply break at executor.py line 47 makes
the post-apply break at line 54 unreachable), so the target itself is
never applied or recorded, contradicting the claim and the spec sentence
"If `target` is given, stop after applying it".  Evaluated at the failing
input: two fresh migrations with the second as target, only the first is
applied. -/
theorem c3_migrate_stops_before_target :
    m2ex.name = "0002_auto" ∧
    (migrate "t0" [m1ex, m2ex] [] (some "0002_auto")).2.2 = ["0001_initial"] ∧
    "0002_auto" ∉ (migrate "t0" [m1ex, m2ex] [] (some "0002_auto")).2.2 ∧
    (migrate "t0" [m1ex, m2ex] [] (some "0002_auto")).2.1 = [("0001_initial", "t0")] := by
  refine ⟨rfl, rfl, ?_, rfl⟩
  decide

/-- Helper for C4: the `target` comparison in the migrate loop never fires
when no migration bears the target's name, so the loop behaves exactly as
it does with no target at all. -/
theorem migrateLoop_target_not_mem (now : String) (applied : List String) (t : String)
    (ms : List MigrationInfo) (h : ∀ m ∈ ms, m.name ≠ t) :
    ∀ rows, migrateLoop now applied (some t) ms rows = migrateLoop now applied none ms rows := by
  induction ms with
  | nil => intro rows; rfl
  | cons m ms ih =>
    intro rows
    have hm : m.name ≠ t := h m (List.mem_cons_self m ms)
    have hrest : ∀ m' ∈ ms, m'.name ≠ t := fun m' hm' => h m' (List.mem_cons_of_mem m hm')
    simp only [migrateLoop]
    have hne : ¬ ((some t : Option String) = some m.name) := by
      intro hc
      exact hm (Option.some.inj hc).symm
    have hnone : ¬ ((none : Option String) = some m.name) := by
      intro hc
      cases hc
    rw [if_neg hne, if_neg hnone, if_neg hne, if_neg hnone]
    by_cases hmem : m.name ∈ applied
    · rw [if_pos hmem, if_pos hmem]
      exact ih hrest rows
    · rw [if_neg hmem, if_neg hmem]
      rw [ih hrest]

/-- C4 (amended): `revert_to` fails with the migration-not-found error when
the target names no migration in the list, but `migrate` performs no such
check: an absent target never matches the loop's comparison, so `migrate`
behaves exactly as if no target had been given and applies every
not-yet-applied migration. -/
theorem c4_missing_target (migrations : List MigrationInfo)
    (rows : List (String × String)) (t : String)
    (h : ∀ m ∈ migrations, m.name ≠ t) :
    revertTo migrations rows t = .error ("Migration " ++ t ++ " not found") ∧
    ∀ now, migrate now migrations rows (some t) = migrate now migrations rows none := by
  constructor
  · have hidx : migrations.findIdx? (fun m => m.name = t) = none := by
      rw [List.findIdx?_eq_none_iff]
      intro m hm
      simp [h m hm]
    simp [revertTo, hidx]
  · intro now
    simp only [migrate]
    rw [migrateLoop_target_not_mem now (getApplied rows) t migrations h rows]

/-- Witness for C4's amended theorem at a concrete input: the single
migration list does not contain "0099_nope", so revert_to errors and
migrate with that target equals migrate without a target. -/
theorem c4_missing_target_witness :
    revertTo [m1ex] [] "0099_nope" = .error ("Migration " ++ "0099_nope" ++ " not found") ∧
    migrate "t0" [m1ex] [] (some "0099_nope") = migrate "t0" [m1ex] [] none := by
  have h := c4_missing_target [m1ex] [] "0099_nope" (by decide)
  exact ⟨h.1, h.2 "t0"⟩

/-- C4 counterexample: the claim asserts `migrate` "likewise fails rather
than proceeding" on a target absent from the list, but the code proceeds:
with target "0099_nope" absent, the only (unapplied) migration is applied
and recorded. -/
theorem c4_counterexample :
    m1ex.name ≠ "0099_nope" ∧
    (migrate "t0" [m1ex] [] (some "0099_nope")).2.2 = ["0001_initial"] ∧
    (migrate "t0" [m1ex] [] (some "0099_nope")).2.1 = [("0001_initial", "t0")] := by
  refine ⟨?_, rfl, rfl⟩
  decide

/-- C5 (amended): `get_applied` returns the recorded names sorted
ascending (by Python's code-point string order); duplicates are kept, the
result is a permutation of the recorded names. -/
theorem c5_getApplied_sorted_perm (rows : List (String × String)) :
    List.Sorted (fun a b => strLeB a b = true) (getApplied rows) ∧
    (getApplied rows).Perm (rows.map Prod.fst) := by
  constructor
  · exact List.sorted_insertionSort (fun a b => strLeB a b = true) (rows.map Prod.fst)
  · exact List.perm_insertionSort (fun a b => strLeB a b = true) (rows.map Prod.fst)

/-- C5 counterexample: with the same name recorded twice, `get_applied`
returns it twice — `sorted(...)` deduplicates nothing — so the result is
not the *distinct* sorted list the claim describes. -/
theorem c5_counterexample :
    getApplied [("0001_a", "x"), ("0001_a", "y")] = ["0001_a", "0001_a"] ∧
    ¬ (getApplied [("0001_a", "x"), ("0001_a", "y")]).Nodup := by
  constructor
  · rfl
  · decide

/-! ## Type registry (types.py)

The host types that can appear as column annotations.  `other` stands for
any type outside the registry.  `isPySubclass` records Python's
`issubclass` facts among these types: `bool` and `Timestamp` are `int`
subclasses, and a dimensioned vector class subclasses its base. -/

/-- Python column annotation types, as a closed universe. -/
inductive PyType where
  | bool
  | int
  | float
  | str
  | timestamp
  | vector (dim : Option Nat)
  | vectorInt8 (dim : Option Nat)
  | other (name : String)
deriving DecidableEq

/-- Python `issubclass` (including reflexivity) on the embedded types. -/
def isPySubclass (a b : PyType) : Bool :=
  if a = b then true
  else
    match a, b with
    | .bool, .int => true
    | .timestamp, .int => true
    | .vector _, .vector none => true
    | .vectorInt8 _, .vectorInt8 none => true
    | _, _ => false

/-- TYPE_MAP of types.py, in its insertion order (bool and Timestamp
before int, deliberately). -/
def TYPE_MAP : List (PyType × String) :=
  [(.bool, "bool"), (.timestamp, "timestamp"), (.int, "int"), (.float, "float"),
   (.str, "string"), (.vector none, "vector"), (.vectorInt8 none, "vector_int8")]

/-- The loop of python_type_to_datalog over TYPE_MAP: an entry matches when
`tp is base_type` or `issubclass(tp, base_type) and tp is not base_type`. -/
def resolveTypeMap : List (PyType × String) → PyType → Except String String
  | [], _ => .error "Unsupported type for InputLayer schema"
  | (base, nm) :: rest, tp =>
    if tp = base ∨ (isPySubclass tp base ∧ tp ≠ base) then .ok nm
    else resolveTypeMap rest tp

/-- python_type_to_datalog: dimensioned vectors are checked first, then
the registry loop runs in TYPE_MAP order. -/
def pythonTypeToDatalog (tp : PyType) : Except String String :=
  match tp with
  | .vector (some d) => .ok ("vector[" ++ decRepr d ++ "]")
  | .vectorInt8 (some d) => .ok ("vector_int8[" ++ decRepr d ++ "]")
  | _ => resolveTypeMap TYPE_MAP tp

/-- C8: boolean resolves before integer (`bool` ↦ "bool", never "int"),
the int subclass Timestamp ↦ "timestamp", dimensioned vectors render with
their dimension, and any type outside the registry is an error. -/
theorem c8_type_resolution :
    pythonTypeToDatalog .bool = .ok "bool" ∧
    pythonTypeToDatalog .timestamp = .ok "timestamp" ∧
    (∀ n, pythonTypeToDatalog (.vector (some n)) = .ok ("vector[" ++ decRepr n ++ "]")) ∧
    (∀ n, pythonTypeToDatalog (.vectorInt8 (some n)) =
      .ok ("vector_int8[" ++ decRepr n ++ "]")) ∧
    (∀ s, pythonTypeToDatalog (.other s) = .error "Unsupported type for InputLayer schema") := by
  refine ⟨rfl, rfl, fun n => rfl, fun n => rfl, fun s => ?_⟩
  simp [pythonTypeToDatalog, resolveTypeMap, TYPE_MAP, isPySubclass]

/-! ## Schema compilation (compiler.py compile_schema)

A typed relation is the introspected metadata compile_schema consumes: a
resolved name and the ordered (column, annotation) list. -/

/-- Resolved relation metadata with typed columns. -/
structure TypedRelation where
  name : String
  columns : List (String × PyType)

/-- The `parts` loop of compile_schema: each column renders as
`name: type`, failing on the first unsupported type. -/
def schemaParts : List (String × PyType) → Except String (List String)
  | [] => .ok []
  | ct :: rest => do
    let dl ← pythonTypeToDatalog ct.2
    let tail ← schemaParts rest
    .ok ((ct.1 ++ ": " ++ dl) :: tail)

/-- compile_schema: `+name(col1: type1, …)`. -/
def compileSchema (r : TypedRelation) : Except String String := do
  let parts ← schemaParts r.columns
  .ok ("+" ++ r.name ++ "(" ++ String.intercalate ", " parts ++ ")")

theorem schemaParts_ok (columns : List (String × PyType)) (ts : List String)
    (h : columns.map (fun ct => pythonTypeToDatalog ct.2) = ts.map Except.ok) :
    schemaParts columns =
      .ok (List.zipWith (fun ct t => ct.1 ++ ": " ++ t) columns ts) := by
  induction columns generalizing ts with
  | nil =>
    cases ts with
    | nil => rfl
    | cons t ts' => simp at h
  | cons ct rest ih =>
    cases ts with
    | nil => simp at h
    | cons t ts' =>
      simp only [List.map_cons, List.cons.injEq] at h
      obtain ⟨h1, h2⟩ := h
      simp only [schemaParts, h1, ih ts' h2, List.zipWith_cons_cons]
      rfl

/-- C7: when every column type resolves, compile_schema emits exactly
`+name(c1: t1, c2: t2, …)` with the columns in declaration order joined
by comma-space. -/
theorem c7_compile_schema (r : TypedRelation) (ts : List String)
    (h : r.columns.map (fun ct => pythonTypeToDatalog ct.2) = ts.map Except.ok) :
    compileSchema r = .ok ("+" ++ r.name ++ "(" ++
      String.intercalate ", "
        (List.zipWith (fun ct t => ct.1 ++ ": " ++ t) r.columns ts) ++ ")") := by
  simp only [compileSchema, schemaParts_ok r.columns ts h]
  rfl

/-- The Employee relation of the spec's scenario S1. -/
def employeeRel : TypedRelation :=
  ⟨"employee", [("id", .int), ("name", .str), ("department", .str),
    ("salary", .float), ("active", .bool)]⟩

/-- Witness for C7 at the spec's S1 scenario input. -/
theorem c7_compile_schema_witness :
    compileSchema employeeRel =
      .ok "+employee(id: int, name: string, department: string, salary: float, active: bool)" := by
  have h := c7_compile_schema employeeRel ["int", "string", "string", "float", "bool"] rfl
  simpa using h

/-! ## ModelState and autodetector (migrations/state.py, autodetector.py)

Python dicts become association lists (keys unique, insertion order);
`sorted(set - set)` and `sorted(set & set)` become sorted filters over
the key lists.  An index's info dict always carries the six fields that
`from_models` writes, so it is a structure (the autodetector's
`.get(key, default)` calls then always find the field). -/

/-- Info dict of one HNSW index inside a ModelState. -/
structure IndexInfo where
  relation : String
  column : String
  metric : String
  m : Int
  efConstruction : Int
  efSearch : Int
deriving DecidableEq, Inhabited

/-- Snapshot of relations, rules and indexes (state.py ModelState). -/
structure ModelState where
  relations : List (String × List (String × String))
  rules : List (String × List String)
  indexes : List (String × IndexInfo)
deriving DecidableEq

/-- Python `sorted` over a list of names. -/
def sortStr (l : List String) : List String :=
  List.insertionSort (fun a b => strLeB a b = true) l

/-- Dict lookup for a relation's column list (present for every key). -/
def lookupRel (s : ModelState) (n : String) : List (String × String) :=
  (s.relations.lookup n).getD []

/-- Dict lookup for a rule's clause list. -/
def lookupRules (s : ModelState) (n : String) : List String :=
  (s.rules.lookup n).getD []

/-- Dict lookup for an index's info. -/
def lookupIdx (s : ModelState) (n : String) : IndexInfo :=
  (s.indexes.lookup n).getD default

/-- CreateIndex from an info dict, as the autodetector builds it. -/
def createIndexOf (name : String) (info : IndexInfo) : Operation :=
  .createIndex name info.relation info.column info.metric info.m
    info.efConstruction info.efSearch

/-- DropIndex from an info dict, as the autodetector builds it. -/
def dropIndexOf (name : String) (info : IndexInfo) : Operation :=
  .dropIndex name info.relation info.column info.metric info.m
    info.efConstruction info.efSearch

/-- detect_changes: diff two states into the ordered operation list,
phases 1-9 of autodetector.py. -/
def detectChanges (old new : ModelState) : List Operation :=
  let oldRels := old.relations.map Prod.fst
  let newRels := new.relations.map Prod.fst
  let oldRules := old.rules.map Prod.fst
  let newRules := new.rules.map Prod.fst
  let oldIdxs := old.indexes.map Prod.fst
  let newIdxs := new.indexes.map Prod.fst
  (sortStr (newRels.filter (fun n => ¬ n ∈ oldRels))).map
    (fun name => Operation.createRelation name (lookupRel new name)) ++
  (sortStr (oldRels.filter (fun n => n ∈ newRels))).flatMap
    (fun name =>
      if lookupRel old name ≠ lookupRel new name then
        [Operation.dropRelation name (lookupRel old name),
         Operation.createRelation name (lookupRel new name)]
      else []) ++
  (sortStr (oldRules.filter (fun n => ¬ n ∈ newRules))).map
    (fun name => Operation.dropRule name (lookupRules old name)) ++
  (sortStr (oldRules.filter (fun n => n ∈ newRules))).flatMap
    (fun name =>
      if lookupRules old name ≠ lookupRules new name then
        [Operation.replaceRule name (lookupRules old name) (lookupRules new name)]
      else []) ++
  (sortStr (newRules.filter (fun n => ¬ n ∈ oldRules))).map
    (fun name => Operation.createRule name (lookupRules new name)) ++
  (sortStr (oldRels.filter (fun n => ¬ n ∈ newRels))).map
    (fun name => Operation.dropRelation name (lookupRel old name)) ++
  (sortStr (oldIdxs.filter (fun n => ¬ n ∈ newIdxs))).map
    (fun name => dropIndexOf name (lookupIdx old name)) ++
  (sortStr (oldIdxs.filter (fun n => n ∈ newIdxs))).flatMap
    (fun name =>
      if lookupIdx old name ≠ lookupIdx new name then
        [dropIndexOf name (lookupIdx old name), createIndexOf name (lookupIdx new name)]
      else []) ++
  (sortStr (newIdxs.filter (fun n => ¬ n ∈ oldIdxs))).map
    (fun name => createIndexOf name (lookupIdx new name))

theorem filter_not_mem_self {l : List String} :
    l.filter (fun n => ¬ n ∈ l) = [] := by
  rw [List.filter_eq_nil_iff]
  intro a ha
  simp [ha]

theorem flatMap_if_self_eq_nil {α : Type} [DecidableEq α] (l : List String)
    (f : String → α) (g h : String → List Operation)
    (hgh : ∀ n, (if f n ≠ f n then g n else h n) = h n)
    (hnil : ∀ n, h n = []) :
    (l.flatMap fun n => if f n ≠ f n then g n else h n) = [] := by
  rw [List.flatMap_eq_nil_iff]
  intro n _
  rw [hgh n, hnil n]

/-- C9: diffing a ModelState against itself produces no operations. -/
theorem c9_detect_changes_self (S : ModelState) : detectChanges S S = [] := by
  simp only [detectChanges, filter_not_mem_self]
  simp [sortStr, List.flatMap_eq_nil_iff]

/-! ## Naming (_naming.py)

`snake_to_camel` splits on underscores and capitalizes each part
(Python `str.capitalize` uppercases the first character and lowercases
the rest); `column_to_variable` is exactly `snake_to_camel`.  The key
fact proved here: the result never contains an underscore. -/

/-- Python `name.split("_")` on a character list. -/
def splitUnd : List Char → List (List Char)
  | [] => [[]]
  | c :: cs =>
    if c = '_' then [] :: splitUnd cs
    else
      match splitUnd cs with
      | [] => [[c]]
      | p :: ps => (c :: p) :: ps

/-- Python `part.capitalize()`: first char uppercased, rest lowercased. -/
def capitalizePart : List Char → List Char
  | [] => []
  | c :: rest => c.toUpper :: rest.map Char.toLower

/-- snake_to_camel: split on `_`, capitalize each part, concatenate. -/
def snakeToCamel (s : String) : String :=
  String.mk (((splitUnd s.data).map capitalizePart).flatten)

/-- column_to_variable is snake_to_camel verbatim. -/
def columnToVariable (s : String) : String := snakeToCamel s

/-- A string with no underscore character. -/
def noUnd (s : String) : Prop := '_' ∉ s.data

theorem splitUnd_no_underscore (l : List Char) :
    ∀ p ∈ splitUnd l, '_' ∉ p := by
  induction l with
  | nil =>
    intro p hp
    simp [splitUnd] at hp
    subst hp
    simp
  | cons c cs ih =>
    intro p hp
    simp only [splitUnd] at hp
    by_cases hc : c = '_'
    · rw [if_pos hc] at hp
      rcases List.mem_cons.mp hp with h | h
      · subst h; simp
      · exact ih p h
    · rw [if_neg hc] at hp
      cases hs : splitUnd cs with
      | nil =>
        rw [hs] at hp
        simp at hp
        subst hp
        simp only [List.mem_singleton]
        exact fun he => hc he.symm
      | cons q qs =>
        rw [hs] at hp
        rcases List.mem_cons.mp hp with h | h
        · subst h
          intro hmem
          rcases List.mem_cons.mp hmem with h2 | h2
          · exact hc h2.symm
          · exact ih q (by rw [hs]; exact List.mem_cons_self q qs) h2
        · exact ih p (by rw [hs]; exact List.mem_cons_of_mem q h)

theorem toUpper_ne_underscore (c : Char) (h : c ≠ '_') : Char.toUpper c ≠ '_' := by
  simp only [Char.toUpper]
  split
  · intro hc
    rename_i hr
    have hv : (Char.toNat c - 32).isValidChar := by
      constructor
      omega
    have ht := char_toNat_ofNat_valid (Char.toNat c - 32) hv
    rw [hc] at ht
    have h95 : ('_').toNat = 95 := by decide
    omega
  · exact h

theorem toLower_ne_underscore (c : Char) (h : c ≠ '_') : Char.toLower c ≠ '_' := by
  simp only [Char.toLower]
  split
  · intro hc
    rename_i hr
    have hv : (Char.toNat c + 32).isValidChar := by
      constructor
      omega
    have ht := char_toNat_ofNat_valid (Char.toNat c + 32) hv
    rw [hc] at ht
    have h95 : ('_').toNat = 95 := by decide
    omega
  · exact h

theorem capitalizePart_no_underscore (p : List Char) (hp : '_' ∉ p) :
    '_' ∉ capitalizePart p := by
  cases p with
  | nil => simp [capitalizePart]
  | cons c rest =>
    simp only [capitalizePart, List.mem_cons, not_or]
    constructor
    · intro hc
      exact toUpper_ne_underscore c (fun he => hp (by rw [he]; exact List.mem_cons_self _ _)) hc.symm
    · intro hm
      rw [List.mem_map] at hm
      obtain ⟨a, ha, hla⟩ := hm
      exact toLower_ne_underscore a
        (fun he => hp (by rw [← he]; exact List.mem_cons_of_mem _ ha)) hla

theorem noUnd_columnToVariable (s : String) : noUnd (columnToVariable s) := by
  simp only [noUnd, columnToVariable, snakeToCamel]
  intro hmem
  rw [List.mem_flatten] at hmem
  obtain ⟨l, hl, hcl⟩ := hmem
  rw [List.mem_map] at hl
  obtain ⟨p, hp, hpl⟩ := hl
  subst hpl
  exact capitalizePart_no_underscore p (splitUnd_no_underscore s.data p hp) hcl

/-! ## Suffix decomposition facts

A disambiguated variable `base_N` splits uniquely at its first
underscore when the base has none and the suffix is all digits. -/

theorem string_data_append3 (b m r : String) :
    (b ++ m ++ r).data = b.data ++ (m.data ++ r.data) := by
  rw [String.data_append, String.data_append, List.append_assoc]

theorem mem_underscore_append (b r : String) : '_' ∈ (b ++ "_" ++ r).data := by
  rw [string_data_append3]
  apply List.mem_append_right
  apply List.mem_append_left
  simp

theorem split_first_underscore {l1 l2 r1 r2 : List Char}
    (h : l1 ++ '_' :: r1 = l2 ++ '_' :: r2) (h1 : '_' ∉ l1) (h2 : '_' ∉ l2) :
    l1 = l2 ∧ r1 = r2 := by
  induction l1 generalizing l2 with
  | nil =>
    cases l2 with
    | nil => simpa using h
    | cons b bs =>
      simp at h
      exact absurd (by rw [← h.1]; exact List.mem_cons_self _ _) h2
  | cons a as ih =>
    cases l2 with
    | nil =>
      simp at h
      exact absurd (by rw [h.1]; exact List.mem_cons_self _ _) h1
    | cons b bs =>
      simp only [List.cons_append, List.cons.injEq] at h
      obtain ⟨hab, hrest⟩ := h
      have h1' : '_' ∉ as := fun hm => h1 (List.mem_cons_of_mem a hm)
      have h2' : '_' ∉ bs := fun hm => h2 (List.mem_cons_of_mem b hm)
      obtain ⟨he1, he2⟩ := ih hrest h1' h2'
      exact ⟨by rw [hab, he1], he2⟩

theorem underscore_suffix_inj (b1 b2 r1 r2 : String) (hb1 : noUnd b1) (hb2 : noUnd b2)
    (h : b1 ++ "_" ++ r1 = b2 ++ "_" ++ r2) : b1 = b2 ∧ r1 = r2 := by
  have hd := congrArg String.data h
  rw [string_data_append3, string_data_append3] at hd
  have hu : ("_" : String).data = ['_'] := rfl
  rw [hu] at hd
  simp only [List.singleton_append] at hd
  obtain ⟨he1, he2⟩ := split_first_underscore hd hb1 hb2
  exact ⟨String.ext he1, String.ext he2⟩

/-! ## Variable environment (_VarEnv of compiler.py)

The mutable environment becomes explicit state passing.  `_find`'s
path-halving while-loop is embedded with fuel `parent.length + 1`; on the
acyclic parent maps the source actually builds, this fuel suffices (see
the `ReachesIn` lemmas used for claim C1). -/

/-- Python `self._parent.get(key, key)`. -/
def pget (p : List (String × String)) (k : String) : String :=
  (p.lookup k).getD k

/-- Python `d[k] = v` on an association list: update the key in place
(keeping its insertion position) or append it. -/
def pset : List (String × String) → String → String → List (String × String)
  | [], k, v => [(k, v)]
  | kv :: rest, k, v => if kv.1 = k then (k, v) :: rest else kv :: pset rest k v

/-- The body of `_find`: path-halving walk to the root, with fuel. -/
def findAux : Nat → List (String × String) → String → String × List (String × String)
  | 0, p, k => (k, p)
  | fuel + 1, p, k =>
    let v := pget p k
    if v = k then (k, p)
    else
      let gp := pget p v
      findAux fuel (pset p k gp) gp

/-- `_find` with the standard fuel. -/
def findP (p : List (String × String)) (k : String) : String × List (String × String) :=
  findAux (p.length + 1) p k

/-- Column AST node (relation, column name, optional self-join alias). -/
structure Column where
  relation : String
  name : String
  refAlias : Option String := none
deriving DecidableEq

/-- Union-find key of a column: `"alias_or_relation.column"`. -/
def colKey (c : Column) : String := (c.refAlias.getD c.relation) ++ "." ++ c.name

/-- The variable environment: column-key → variable map, disambiguation
counter, union-find parent map. -/
structure VarEnv where
  map : List (String × String)
  counter : Nat
  parent : List (String × String)
deriving DecidableEq

/-- Fresh environment. -/
def VarEnv.empty : VarEnv := ⟨[], 0, []⟩

/-- The disambiguation lines shared verbatim by get_var and unify:
capitalized name, then `_N` with the bumped counter on collision. -/
def mintVar (map : List (String × String)) (counter : Nat) (base : String) :
    String × Nat :=
  let usedVars := map.map Prod.snd
  if base ∈ usedVars then (base ++ "_" ++ decRepr (counter + 1), counter + 1)
  else (base, counter)

/-- _VarEnv.get_var. -/
def VarEnv.getVar (env : VarEnv) (col : Column) : String × VarEnv :=
  let key := colKey col
  let fp := findP env.parent key
  let root := fp.1
  match env.map.lookup root with
  | some v => (v, { env with parent := fp.2 })
  | none =>
    let mv := mintVar env.map env.counter (columnToVariable col.name)
    (mv.1, ⟨pset env.map root mv.1, mv.2, fp.2⟩)

/-- _VarEnv._union: find both roots and point the second at the first. -/
def unionParent (p : List (String × String)) (keyA keyB : String) :
    List (String × String) :=
  let fa := findP p keyA
  let fb := findP fa.2 keyB
  if fa.1 ≠ fb.1 then pset fb.2 fb.1 fa.1 else fb.2

/-- _VarEnv.unify: `_union(key_a, key_b)` then resolve `key_a`'s root. -/
def VarEnv.unify (env : VarEnv) (colA colB : Column) : String × VarEnv :=
  let keyA := colKey colA
  let keyB := colKey colB
  let p3 := unionParent env.parent keyA keyB
  let fr := findP p3 keyA
  let root := fr.1
  match env.map.lookup root with
  | some v => (v, { env with parent := fr.2 })
  | none =>
    let mv := mintVar env.map env.counter (columnToVariable colA.name)
    (mv.1, ⟨pset env.map root mv.1, mv.2, fr.2⟩)

/-- _VarEnv.lookup: resolve without creating. -/
def VarEnv.lookupVar (env : VarEnv) (col : Column) : Option String × VarEnv :=
  let fp := findP env.parent (colKey col)
  (env.map.lookup fp.1, { env with parent := fp.2 })

/-- Positional variables `X0, X1, …` of compile_conditional_delete. -/
def condDeleteVars (n : Nat) : List String :=
  (List.range n).map (fun i => "X" ++ decRepr i)

/-- The pre-bound environment compile_conditional_delete builds: each
`name.col` key maps directly to its positional variable. -/
def condDeleteEnv (relName : String) (columns : List String) : VarEnv :=
  ⟨(columns.zip (condDeleteVars columns.length)).map
     (fun cv => (relName ++ "." ++ cv.1, cv.2)), 0, []⟩

/-- Environments reachable through the compiler's uses of _VarEnv. -/
inductive ReachEnv : VarEnv → Prop
  | empty : ReachEnv VarEnv.empty
  | condDelete (relName : String) (columns : List String) :
      ReachEnv (condDeleteEnv relName columns)
  | getVar {s : VarEnv} (c : Column) : ReachEnv s → ReachEnv (s.getVar c).2
  | unify {s : VarEnv} (a b : Column) : ReachEnv s → ReachEnv (s.unify a b).2
  | lookupVar {s : VarEnv} (c : Column) : ReachEnv s → ReachEnv (s.lookupVar c).2

/-- Shape invariant on assigned variable names: either underscore-free, or
`base_N` with an underscore-free base and `1 ≤ N ≤ counter`. -/
def ValidVal (counter : Nat) (v : String) : Prop :=
  noUnd v ∨ ∃ b j, noUnd b ∧ 1 ≤ j ∧ j ≤ counter ∧ v = b ++ "_" ++ decRepr j

/-- Environment invariant: assigned names are pairwise distinct and
well-shaped. -/
def EnvInv (s : VarEnv) : Prop :=
  (s.map.map Prod.snd).Nodup ∧ ∀ v ∈ s.map.map Prod.snd, ValidVal s.counter v

theorem validVal_mono {c c' : Nat} (h : c ≤ c') {v : String}
    (hv : ValidVal c v) : ValidVal c' v := by
  rcases hv with hv | ⟨b, j, hb, h1, h2, he⟩
  · exact Or.inl hv
  · exact Or.inr ⟨b, j, hb, h1, le_trans h2 h, he⟩

/-- A freshly suffixed name cannot equal any already assigned name. -/
theorem fresh_suffix_not_used (vals : List String) (counter : Nat) (b : String)
    (hb : noUnd b) (hv : ∀ v ∈ vals, ValidVal counter v) :
    b ++ "_" ++ decRepr (counter + 1) ∉ vals := by
  intro hmem
  rcases hv _ hmem with hnu | ⟨b', j, hb', h1, h2, he⟩
  · exact hnu (mem_underscore_append b (decRepr (counter + 1)))
  · obtain ⟨_, hr⟩ := underscore_suffix_inj b b' (decRepr (counter + 1)) (decRepr j) hb hb' he
    have := decRepr_injective (counter + 1) j hr
    omega

/-- The mint step returns a name not already in use, assuming the
invariant; and the updated counter keeps every name well-shaped. -/
theorem mintVar_spec (map : List (String × String)) (counter : Nat) (base : String)
    (hb : noUnd base) (hinv : ∀ v ∈ map.map Prod.snd, ValidVal counter v) :
    (mintVar map counter base).1 ∉ map.map Prod.snd ∧
    counter ≤ (mintVar map counter base).2 ∧
    ValidVal (mintVar map counter base).2 (mintVar map counter base).1 ∧
    ∀ v ∈ map.map Prod.snd, ValidVal (mintVar map counter base).2 v := by
  simp only [mintVar]
  by_cases hc : base ∈ map.map Prod.snd
  · rw [if_pos hc]
    refine ⟨fresh_suffix_not_used _ counter base hb hinv, by omega, ?_, ?_⟩
    · exact Or.inr ⟨base, counter + 1, hb, by omega, le_refl _, rfl⟩
    · intro v hv
      exact validVal_mono (by omega) (hinv v hv)
  · rw [if_neg hc]
    exact ⟨hc, le_refl _, Or.inl hb, hinv⟩

theorem pset_map_snd_absent (map : List (String × String)) (root v : String)
    (h : map.lookup root = none) :
    (pset map root v).map Prod.snd = map.map Prod.snd ++ [v] := by
  induction map with
  | nil => rfl
  | cons kv rest ih =>
    obtain ⟨k0, v0⟩ := kv
    simp only [List.lookup] at h
    by_cases h1 : k0 = root
    · rw [show (root == k0) = true from by simp [h1.symm]] at h
      simp at h
    · rw [show (root == k0) = false from beq_false_of_ne (fun he => h1 he.symm)] at h
      simp only [pset, if_neg h1, List.map_cons, ih h, List.cons_append]

theorem string_append_left_cancel {a b c : String} (h : a ++ b = a ++ c) : b = c := by
  have hd := congrArg String.data h
  rw [String.data_append, String.data_append] at hd
  exact String.ext (List.append_cancel_left hd)

theorem map_snd_zip_eq {α β : Type} :
    ∀ (l1 : List α) (l2 : List β), l1.length = l2.length →
      (l1.zip l2).map Prod.snd = l2 := by
  intro l1
  induction l1 with
  | nil =>
    intro l2 h
    cases l2 with
    | nil => rfl
    | cons b bs => simp at h
  | cons a as ih =>
    intro l2 h
    cases l2 with
    | nil => simp at h
    | cons b bs =>
      simp only [List.zip_cons_cons, List.map_cons]
      rw [ih bs (by simpa using h)]

theorem condDeleteVars_injective : Function.Injective (fun i => "X" ++ decRepr i) := by
  intro i j h
  simp only at h
  exact decRepr_injective i j (string_append_left_cancel h)

theorem noUnd_X_decRepr (i : Nat) : noUnd ("X" ++ decRepr i) := by
  simp only [noUnd, String.data_append]
  intro hm
  rcases List.mem_append.mp hm with hm | hm
  · simp [show ("X" : String).data = ['X'] from rfl] at hm
  · exact decDigits_no_underscore i '_' hm rfl

/-- Values of the pre-bound conditional-delete environment. -/
theorem condDeleteEnv_values (relName : String) (columns : List String) :
    (condDeleteEnv relName columns).map.map Prod.snd = condDeleteVars columns.length := by
  show ((columns.zip (condDeleteVars columns.length)).map
    (fun cv => (relName ++ "." ++ cv.1, cv.2))).map Prod.snd = _
  rw [List.map_map]
  have : (Prod.snd ∘ fun cv : String × String => (relName ++ "." ++ cv.1, cv.2)) =
      Prod.snd := by
    funext cv
    rfl
  rw [this]
  exact map_snd_zip_eq columns (condDeleteVars columns.length) (by simp [condDeleteVars])

/-- A fresh mint extends the invariant. -/
theorem envInv_mint (s : VarEnv) (root : String) (p2 : List (String × String))
    (base : String) (hb : noUnd base) (hinv : EnvInv s)
    (hroot : s.map.lookup root = none) :
    EnvInv ⟨pset s.map root (mintVar s.map s.counter base).1,
      (mintVar s.map s.counter base).2, p2⟩ := by
  obtain ⟨hnodup, hvals⟩ := hinv
  obtain ⟨hfresh, hmono, hvalid, hold⟩ := mintVar_spec s.map s.counter base hb hvals
  constructor
  · show ((pset s.map root (mintVar s.map s.counter base).1).map Prod.snd).Nodup
    rw [pset_map_snd_absent s.map root _ hroot]
    rw [List.nodup_append]
    exact ⟨hnodup, List.nodup_singleton _, by
      intro v hv hsing
      rw [List.mem_singleton] at hsing
      subst hsing
      exact hfresh hv⟩
  · show ∀ v ∈ (pset s.map root (mintVar s.map s.counter base).1).map Prod.snd, _
    rw [pset_map_snd_absent s.map root _ hroot]
    intro v hv
    rcases List.mem_append.mp hv with hv | hv
    · exact hold v hv
    · rw [List.mem_singleton] at hv
      subst hv
      exact hvalid

/-- The invariant holds in every reachable environment. -/
theorem envInv_reach {s : VarEnv} (h : ReachEnv s) : EnvInv s := by
  induction h with
  | empty =>
    refine ⟨List.nodup_nil, ?_⟩
    intro v hv
    simp [VarEnv.empty] at hv
  | condDelete relName columns =>
    rw [EnvInv, condDeleteEnv_values]
    constructor
    · exact List.Nodup.map condDeleteVars_injective (List.nodup_range _)
    · intro v hv
      simp only [condDeleteVars, List.mem_map] at hv
      obtain ⟨i, _, hi⟩ := hv
      exact Or.inl (hi ▸ noUnd_X_decRepr i)
  | getVar c hs ih =>
    rename_i s'
    show EnvInv (s'.getVar c).2
    simp only [VarEnv.getVar]
    split
    · exact ih
    · rename_i hroot
      exact envInv_mint s' _ _ _ (noUnd_columnToVariable c.name) ih hroot
  | unify a b hs ih =>
    rename_i s'
    show EnvInv (s'.unify a b).2
    simp only [VarEnv.unify]
    split
    · exact ih
    · rename_i hroot
      exact envInv_mint s' _ _ _ (noUnd_columnToVariable a.name) ih hroot
  | lookupVar c hs ih =>
    exact ih

/-- C6: in every reachable environment the assigned variable names are
pairwise distinct (distinct union-find roots never share a name), and
when a new column's capitalized name collides with a name already in
use, get_var appends `_N` with the freshly bumped counter, producing a
name different from every name already in use.  The assignment is a
deterministic function of the call sequence by construction. -/
theorem c6_distinct_variable_names (s : VarEnv) (h : ReachEnv s) :
    (s.map.map Prod.snd).Nodup ∧
    ∀ c : Column,
      s.map.lookup (findP s.parent (colKey c)).1 = none →
      columnToVariable c.name ∈ s.map.map Prod.snd →
      (s.getVar c).1 = columnToVariable c.name ++ "_" ++ decRepr (s.counter + 1) ∧
      (s.getVar c).1 ∉ s.map.map Prod.snd := by
  obtain ⟨hnodup, hvals⟩ := envInv_reach h
  refine ⟨hnodup, ?_⟩
  intro c hroot hcol
  have hshape : (s.getVar c).1 = (mintVar s.map s.counter (columnToVariable c.name)).1 := by
    simp only [VarEnv.getVar]
    split
    · rename_i v hv
      rw [hroot] at hv
      cases hv
    · rfl
  obtain ⟨hfresh, _, _, _⟩ :=
    mintVar_spec s.map s.counter (columnToVariable c.name) (noUnd_columnToVariable c.name) hvals
  constructor
  · rw [hshape]
    simp only [mintVar]
    rw [if_pos hcol]
  · rw [hshape]
    exact hfresh

/-- A first get_var on the empty environment, binding `e.name ↦ Name`. -/
def envAfterE : VarEnv := (VarEnv.empty.getVar ⟨"e", "name", none⟩).2

/-- Witness for C6: after `e.name` takes the name `Name`, a get_var of the
colliding column `d.name` mints `Name_1`, which is fresh. -/
theorem c6_distinct_variable_names_witness :
    (envAfterE.map.map Prod.snd).Nodup ∧
    (envAfterE.getVar ⟨"d", "name", none⟩).1 = "Name_1" ∧
    (envAfterE.getVar ⟨"d", "name", none⟩).1 ∉ envAfterE.map.map Prod.snd := by
  have h := c6_distinct_variable_names envAfterE
    (ReachEnv.getVar ⟨"e", "name", none⟩ ReachEnv.empty)
  have h2 := h.2 ⟨"d", "name", none⟩ (by decide) (by decide)
  exact ⟨h.1, by rw [h2.1]; decide, h2.2⟩

/-! ## Expression AST (_ast.py) and value/expression compilation

Literal values are the closed universe the value encoder handles (floats
are omitted: no claim depends on Python float repr, and their rendering
is not decidably embeddable).  `InExpr`/`NegatedIn` carry `Column`
fields: the only constructors (`ColumnProxy.in_`) pass columns, and
`_compile_in` asserts exactly that. -/

/-- Literal values. -/
inductive Value where
  | null
  | bool (b : Bool)
  | int (i : Int)
  | str (s : String)
  | list (vs : List Value)
  | timestamp (t : Int)

/-- String escaping of compile_value: double backslashes, escape quotes. -/
def escapeString (s : String) : String :=
  String.mk (s.data.flatMap (fun c =>
    if c = '\\' then ['\\', '\\']
    else if c = '"' then ['\\', '"']
    else [c]))

mutual

/-- compile_value: literal → Datalog text.  A Timestamp value satisfies
`isinstance(value, int)` in the source and renders as its integer. -/
def compileValue : Value → String
  | .null => "null"
  | .bool b => if b then "true" else "false"
  | .int i => intRepr i
  | .str s => "\"" ++ escapeString s ++ "\""
  | .list vs => "[" ++ String.intercalate ", " (compileValueList vs) ++ "]"
  | .timestamp t => intRepr t

/-- The comma-joined elements of a vector literal. -/
def compileValueList : List Value → List String
  | [] => []
  | v :: vs => compileValue v :: compileValueList vs

end

/-- Expression AST nodes (_ast.py). -/
inductive Expr where
  | column (c : Column)
  | literal (v : Value)
  | arith (op : String) (left right : Expr)
  | funcCall (name : String) (args : List Expr)
  | orderedColumn (column : Expr) (descending : Bool)
  | agg (func : String) (column : Option Expr) (params : List Value)
      (passthrough : List Expr) (orderColumn : Option Expr) (desc : Bool)

/-- Boolean expression AST nodes (_ast.py). -/
inductive BoolExpr where
  | comparison (op : String) (left right : Expr)
  | and (left right : BoolExpr)
  | or (left right : BoolExpr)
  | not (operand : BoolExpr)
  | inExpr (column : Column) (targetColumn : Column)
  | negatedIn (column : Column) (targetColumn : Column)
  | matchExpr (relation : String) (bindings : List (String × Expr)) (negated : Bool)

mutual

/-- compile_expr: expression → Datalog text, threading the environment
(the `_compile_agg_expr` helper is inlined into the `agg` arm: params
first, then passthrough, then the ordered or aggregated column). -/
def compileExpr : Expr → VarEnv → String × VarEnv
  | .column c, env => env.getVar c
  | .literal v, env => (compileValue v, env)
  | .arith op l r, env =>
    let lr := compileExpr l env
    let rr := compileExpr r lr.2
    (lr.1 ++ " " ++ op ++ " " ++ rr.1, rr.2)
  | .funcCall name args, env =>
    let ar := compileExprList args env
    (name ++ "(" ++ String.intercalate ", " ar.1 ++ ")", ar.2)
  | .orderedColumn c desc, env =>
    let vr := compileExpr c env
    (vr.1 ++ (if desc then ":desc" else ":asc"), vr.2)
  | .agg func col params pass ord desc, env =>
    let paramParts := params.map compileValue
    let pr := compileExprList pass env
    let tailR : List String × VarEnv :=
      match ord with
      | some o =>
        let ov := compileExpr o pr.2
        ([ov.1 ++ (if desc then ":desc" else ":asc")], ov.2)
      | none =>
        match col with
        | some c2 =>
          let cv := compileExpr c2 pr.2
          ([cv.1], cv.2)
        | none => ([], pr.2)
    (func ++ "<" ++ String.intercalate ", " (paramParts ++ pr.1 ++ tailR.1) ++ ">", tailR.2)

/-- Compilation of an expression list, left to right. -/
def compileExprList : List Expr → VarEnv → List String × VarEnv
  | [], env => ([], env)
  | e :: es, env =>
    let er := compileExpr e env
    let rr := compileExprList es er.2
    (er.1 :: rr.1, rr.2)

end

/-- _compile_comparison: `Column = Column` unifies and emits no text; any
other comparison emits `left op right`. -/
def compileComparison (op : String) (left right : Expr) (env : VarEnv) :
    String × VarEnv :=
  match op, left, right with
  | "=", .column a, .column b =>
    let ur := env.unify a b
    ("", ur.2)
  | _, _, _ =>
    let lr := compileExpr left env
    let rr := compileExpr right lr.2
    (lr.1 ++ " " ++ op ++ " " ++ rr.1, rr.2)

/-- _compile_in: bind the source and target columns, unify them, and emit
the (ill-formed) `name(..., Var, ...)` atom of the source. -/
def compileIn (column targetColumn : Column) (negated : Bool) (env : VarEnv) :
    String × VarEnv :=
  let sr := env.getVar column
  let tr := sr.2.getVar targetColumn
  let ur := tr.2.unify column targetColumn
  let tr2 := ur.2.getVar targetColumn
  let pfx := if negated then "!" else ""
  (pfx ++ targetColumn.relation ++ "(..., " ++ tr2.1 ++ ", ...)", tr2.2)

/-- _compile_match: compile each binding's source expression in order. -/
def compileMatch (relation : String) (bindings : List (String × Expr))
    (negated : Bool) (env : VarEnv) : String × VarEnv :=
  let pr := compileExprList (bindings.map Prod.snd) env
  ((if negated then "!" else "") ++ relation ++ "(" ++
    String.intercalate ", " pr.1 ++ ")", pr.2)

/-- compile_bool_expr: AND concatenates, OR raises. -/
def compileBoolExpr : BoolExpr → VarEnv → Except String (List String × VarEnv)
  | .comparison op l r, env =>
    let cr := compileComparison op l r env
    .ok ([cr.1], cr.2)
  | .and l r, env => do
    let lr ← compileBoolExpr l env
    let rr ← compileBoolExpr r lr.2
    .ok (lr.1 ++ rr.1, rr.2)
  | .or _ _, _ =>
    .error "OR conditions require query splitting. Use compile_or_branches() instead."
  | .not operand, env => do
    let ir ← compileBoolExpr operand env
    .ok (["!(" ++ String.intercalate ", " ir.1 ++ ")"], ir.2)
  | .inExpr c t, env =>
    let r := compileIn c t false env
    .ok ([r.1], r.2)
  | .negatedIn c t, env =>
    let r := compileIn c t true env
    .ok ([r.1], r.2)
  | .matchExpr rel binds neg, env =>
    let r := compileMatch rel binds neg env
    .ok ([r.1], r.2)

/-- compile_or_branches: split OR nodes recursively, sharing one
environment across the branches. -/
def compileOrBranches : BoolExpr → VarEnv → Except String (List (List String) × VarEnv)
  | .or l r, env => do
    let lb ← compileOrBranches l env
    let rb ← compileOrBranches r lb.2
    .ok (lb.1 ++ rb.1, rb.2)
  | b, env => do
    let r ← compileBoolExpr b env
    .ok ([r.1], r.2)

/-- _has_or of compile_query. -/
def hasOr : BoolExpr → Bool
  | .or _ _ => true
  | .and l r => hasOr l || hasOr r
  | .not o => hasOr o
  | _ => false

/-- Number of Or nodes on the root Or-spine (the claim's `k`). -/
def orSpineCount : BoolExpr → Nat
  | .or l r => 1 + orSpineCount l + orSpineCount r
  | _ => 0

/-- Every leaf of the root Or-spine is itself Or-free. -/
def orLeavesOrFree : BoolExpr → Bool
  | .or l r => orLeavesOrFree l && orLeavesOrFree r
  | b => !(hasOr b)

/-! ## Union-find chains

`ReachesIn m p k r` says the parent-pointer walk from `k` reaches the
root `r` in at most `m` steps.  These lemmas show that the path-halving
`_find` returns the chain's root and preserves every chain, and that
`_union` merges the two chains onto the first root. -/

/-- The walk from `k` reaches root `r` within `m` steps. -/
def ReachesIn : Nat → List (String × String) → String → String → Prop
  | 0, p, k, r => pget p k = k ∧ r = k
  | m + 1, p, k, r => (pget p k = k ∧ r = k) ∨ (pget p k ≠ k ∧ ReachesIn m p (pget p k) r)

theorem reachesIn_mono {p : List (String × String)} {k r : String} :
    ∀ {m m' : Nat}, ReachesIn m p k r → m ≤ m' → ReachesIn m' p k r := by
  intro m
  induction m generalizing k with
  | zero =>
    intro m' h hm
    cases m' with
    | zero => exact h
    | succ m'' => exact Or.inl h
  | succ mm ih =>
    intro m' h hm
    cases m' with
    | zero => omega
    | succ m'' =>
      rcases h with h | ⟨hne, hrec⟩
      · exact Or.inl h
      · exact Or.inr ⟨hne, ih hrec (by omega)⟩

theorem reachesIn_root {p : List (String × String)} :
    ∀ {m : Nat} {k r : String}, ReachesIn m p k r → pget p r = r := by
  intro m
  induction m with
  | zero =>
    intro k r h
    obtain ⟨h1, h2⟩ := h
    rw [h2]; exact h1
  | succ mm ih =>
    intro k r h
    rcases h with ⟨h1, h2⟩ | ⟨_, hrec⟩
    · rw [h2]; exact h1
    · exact ih hrec

theorem reachesIn_root_self {p : List (String × String)} {m : Nat} {k r : String}
    (h : ReachesIn m p k r) (hk : pget p k = k) : r = k := by
  cases m with
  | zero => exact h.2
  | succ mm =>
    rcases h with ⟨_, h2⟩ | ⟨hne, _⟩
    · exact h2
    · exact absurd hk hne

theorem reachesIn_no_cycle2 {p : List (String × String)} :
    ∀ (m : Nat) (k r : String), ReachesIn m p k r → pget p k ≠ k →
      pget p (pget p k) = k → False := by
  intro m
  induction m using Nat.strong_induction_on with
  | _ m ih =>
    intro k r h hne hcyc
    cases m with
    | zero => exact hne h.1
    | succ mm =>
      rcases h with ⟨h1, _⟩ | ⟨_, hrec⟩
      · exact hne h1
      · cases mm with
        | zero =>
          obtain ⟨hv, _⟩ := hrec
          rw [hcyc] at hv
          exact hne hv.symm
        | succ mmm =>
          rcases hrec with ⟨hv, _⟩ | ⟨hvne, hrec2⟩
          · rw [hcyc] at hv
            exact hne hv.symm
          · rw [hcyc] at hrec2
            exact ih mmm (by omega) k r hrec2 hne hcyc

theorem pget_nil (x : String) : pget [] x = x := rfl

theorem pget_cons (k0 v0 : String) (rest : List (String × String)) (x : String) :
    pget ((k0, v0) :: rest) x = if x = k0 then v0 else pget rest x := by
  simp only [pget, List.lookup]
  by_cases h : x = k0
  · simp [h]
  · simp [beq_false_of_ne h, h]

theorem pget_pset (p : List (String × String)) (a b x : String) :
    pget (pset p a b) x = if x = a then b else pget p x := by
  induction p with
  | nil =>
    show pget [(a, b)] x = _
    rw [pget_cons]
  | cons kv rest ih =>
    obtain ⟨k0, v0⟩ := kv
    simp only [pset]
    by_cases h1 : k0 = a
    · rw [if_pos h1]
      subst h1
      rw [pget_cons, pget_cons]
      by_cases hx : x = k0
      · simp [hx]
      · simp [hx]
    · rw [if_neg h1]
      rw [pget_cons]
      by_cases hx : x = k0
      · subst hx
        have hxa : x ≠ a := h1
        simp [hxa, pget_cons]
      · simp only [if_neg hx]
        rw [ih, pget_cons]
        by_cases hxa : x = a
        · simp [hxa]
        · simp [hxa, hx]

theorem lookup_pset_self (p : List (String × String)) (a b : String) :
    List.lookup a (pset p a b) = some b := by
  induction p with
  | nil => simp [pset, List.lookup]
  | cons kv rest ih =>
    obtain ⟨k0, v0⟩ := kv
    simp only [pset]
    by_cases h1 : k0 = a
    · rw [if_pos h1]
      simp [List.lookup]
    · rw [if_neg h1]
      simp only [List.lookup]
      have : (a == k0) = false := beq_false_of_ne (fun he => h1 he.symm)
      simp only [this]
      exact ih

theorem pset_length (p : List (String × String)) (a b : String) :
    (pset p a b).length =
      if (List.lookup a p).isSome then p.length else p.length + 1 := by
  induction p with
  | nil => simp [pset, List.lookup]
  | cons kv rest ih =>
    obtain ⟨k0, v0⟩ := kv
    simp only [pset]
    by_cases h1 : k0 = a
    · rw [if_pos h1]
      simp [List.lookup, show (a == k0) = true from by simp [h1.symm]]
    · rw [if_neg h1]
      simp only [List.length_cons, List.lookup,
        show (a == k0) = false from beq_false_of_ne (fun he => h1 he.symm)]
      rw [ih]
      by_cases h : (List.lookup a rest).isSome
      · simp [h]
      · simp [h]

theorem lookup_mem {p : List (String × String)} {w v : String}
    (h : List.lookup w p = some v) : (w, v) ∈ p := by
  induction p with
  | nil => simp [List.lookup] at h
  | cons kv rest ih =>
    obtain ⟨k0, v0⟩ := kv
    simp only [List.lookup] at h
    by_cases hk : w = k0
    · rw [show (w == k0) = true from by simp [hk]] at h
      simp at h
      rw [hk, h]
      exact List.mem_cons_self _ _
    · rw [beq_false_of_ne hk] at h
      exact List.mem_cons_of_mem _ (ih h)

/-- A parent map with no self-pointing entry (roots carry no entry). -/
def NoSelfParent (p : List (String × String)) : Prop := ∀ e ∈ p, e.2 ≠ e.1

theorem lookup_none_of_root {p : List (String × String)} {w : String}
    (hns : NoSelfParent p) (hw : pget p w = w) : List.lookup w p = none := by
  cases hl : List.lookup w p with
  | none => rfl
  | some v =>
    have hv : v = w := by
      have := hw
      simp only [pget, hl, Option.getD_some] at this
      exact this
    subst hv
    exact absurd rfl (hns (v, v) (lookup_mem hl))

theorem noSelf_pset {p : List (String × String)} {k v : String}
    (hns : NoSelfParent p) (hv : v ≠ k) : NoSelfParent (pset p k v) := by
  induction p with
  | nil =>
    intro e he
    simp [pset] at he
    rw [he]
    exact hv
  | cons kv rest ih =>
    obtain ⟨k0, v0⟩ := kv
    have hns' : NoSelfParent rest := fun e he => hns e (List.mem_cons_of_mem _ he)
    simp only [pset]
    by_cases h1 : k0 = k
    · rw [if_pos h1]
      intro e he
      rcases List.mem_cons.mp he with he | he
      · rw [he]; exact hv
      · exact hns e (List.mem_cons_of_mem _ he)
    · rw [if_neg h1]
      intro e he
      rcases List.mem_cons.mp he with he | he
      · rw [he]; exact hns (k0, v0) (List.mem_cons_self _ _)
      · exact ih hns' e he

/-- A path-halving write preserves every chain. -/
theorem reachesIn_pset_halve {p : List (String × String)} {k0 : String}
    (hk0 : pget p k0 ≠ k0) :
    ∀ (m : Nat) (k r : String), ReachesIn m p k r →
      ReachesIn m (pset p k0 (pget p (pget p k0))) k r := by
  intro m
  induction m using Nat.strong_induction_on with
  | _ m ih =>
    intro k r h
    cases m with
    | zero =>
      obtain ⟨hroot, hr⟩ := h
      have hkk0 : k ≠ k0 := fun he => hk0 (he ▸ hroot)
      exact ⟨by rw [pget_pset, if_neg hkk0]; exact hroot, hr⟩
    | succ mm =>
      rcases h with ⟨hroot, hr⟩ | ⟨hne, hrec⟩
      · have hkk0 : k ≠ k0 := fun he => hk0 (he ▸ hroot)
        exact Or.inl ⟨by rw [pget_pset, if_neg hkk0]; exact hroot, hr⟩
      · by_cases hkk0 : k = k0
        · subst hkk0
          by_cases hgpk : pget p (pget p k) = k
          · exact absurd hgpk (fun hc =>
              reachesIn_no_cycle2 (mm + 1) k r (Or.inr ⟨hne, hrec⟩) hne hc)
          · refine Or.inr ⟨?_, ?_⟩
            · rw [pget_pset, if_pos rfl]
              exact hgpk
            · rw [pget_pset, if_pos rfl]
              cases mm with
              | zero =>
                obtain ⟨hv, hr2⟩ := hrec
                rw [hv]
                exact ⟨by rw [pget_pset, if_neg hne]; exact hv, hr2⟩
              | succ mm2 =>
                rcases hrec with ⟨hv, hr2⟩ | ⟨hvne, hrec2⟩
                · rw [hv]
                  exact Or.inl ⟨by rw [pget_pset, if_neg hne]; exact hv, hr2⟩
                · exact reachesIn_mono (ih mm2 (by omega) (pget p (pget p k)) r hrec2) (by omega)
        · refine Or.inr ⟨?_, ?_⟩
          · rw [pget_pset, if_neg hkk0]
            exact hne
          · rw [pget_pset, if_neg hkk0]
            exact ih mm (by omega) (pget p k) r hrec

/-- Writing at a root `w` that a chain does not end in preserves the chain. -/
theorem reachesIn_pset_avoid {p : List (String × String)} {w a : String}
    (hw : pget p w = w) :
    ∀ (m : Nat) (k r : String), ReachesIn m p k r → r ≠ w →
      ReachesIn m (pset p w a) k r := by
  intro m
  induction m with
  | zero =>
    intro k r h hrw
    obtain ⟨hroot, hr⟩ := h
    have hkw : k ≠ w := fun he => hrw (by rw [hr, he])
    exact ⟨by rw [pget_pset, if_neg hkw]; exact hroot, hr⟩
  | succ mm ih =>
    intro k r h hrw
    rcases h with ⟨hroot, hr⟩ | ⟨hne, hrec⟩
    · have hkw : k ≠ w := fun he => hrw (by rw [hr, he])
      exact Or.inl ⟨by rw [pget_pset, if_neg hkw]; exact hroot, hr⟩
    · by_cases hkw : k = w
      · subst hkw
        exact absurd hw hne
      · exact Or.inr ⟨by rw [pget_pset, if_neg hkw]; exact hne,
          by rw [pget_pset, if_neg hkw]; exact ih (pget p k) r hrec hrw⟩

/-- Redirecting root `rb` to root `ra` turns every chain into `rb` into a
chain into `ra`, one step longer. -/
theorem reachesIn_pset_redirect {p : List (String × String)} {rb ra : String}
    (hrb : pget p rb = rb) (hra : pget p ra = ra) (hne : ra ≠ rb) :
    ∀ (m : Nat) (k : String), ReachesIn m p k rb →
      ReachesIn (m + 1) (pset p rb ra) k ra := by
  intro m
  induction m with
  | zero =>
    intro k h
    obtain ⟨hroot, hr⟩ := h
    subst hr
    refine Or.inr ⟨?_, ?_⟩
    · rw [pget_pset, if_pos rfl]
      exact hne
    · rw [pget_pset, if_pos rfl]
      exact ⟨by rw [pget_pset, if_neg hne]; exact hra, rfl⟩
  | succ mm ih =>
    intro k h
    rcases h with ⟨hroot, hr⟩ | ⟨hkne, hrec⟩
    · subst hr
      refine Or.inr ⟨?_, ?_⟩
      · rw [pget_pset, if_pos rfl]
        exact hne
      · rw [pget_pset, if_pos rfl]
        exact reachesIn_mono
          (show ReachesIn 0 (pset p rb ra) ra ra from
            ⟨by rw [pget_pset, if_neg hne]; exact hra, rfl⟩)
          (by omega)
    · have hkw : k ≠ rb := fun he => hkne (he ▸ hrb)
      exact Or.inr ⟨by rw [pget_pset, if_neg hkw]; exact hkne,
        by rw [pget_pset, if_neg hkw]; exact ih (pget p k) hrec⟩

/-- The fuelled find returns the chain's root, keeps the map's size,
preserves every chain, and preserves absence of self-entries. -/
theorem findAux_spec :
    ∀ (fuel : Nat) (p : List (String × String)) (k r : String) (m : Nat),
      ReachesIn m p k r → m < fuel →
      (findAux fuel p k).1 = r ∧
      (findAux fuel p k).2.length = p.length ∧
      (∀ (m2 : Nat) (x y : String), ReachesIn m2 p x y →
        ReachesIn m2 (findAux fuel p k).2 x y) ∧
      (NoSelfParent p → NoSelfParent (findAux fuel p k).2) := by
  intro fuel
  induction fuel with
  | zero =>
    intro p k r m h hm
    omega
  | succ f ih =>
    intro p k r m h hm
    by_cases hroot : pget p k = k
    · have hr : r = k := reachesIn_root_self h hroot
      have hfind : findAux (f + 1) p k = (k, p) := by
        simp [findAux, hroot]
      rw [hfind]
      exact ⟨hr.symm, rfl, fun m2 x y hxy => hxy, fun hns => hns⟩
    · have hfind : findAux (f + 1) p k =
          findAux f (pset p k (pget p (pget p k))) (pget p (pget p k)) := by
        simp [findAux, hroot]
      have hcyc : pget p (pget p k) ≠ k :=
        fun hc => reachesIn_no_cycle2 m k r h hroot hc
      have hlookup : (List.lookup k p).isSome := by
        cases hl : List.lookup k p with
        | none =>
          exact absurd (by simp [pget, hl]) hroot
        | some v => rfl
      have hlen2 : (pset p k (pget p (pget p k))).length = p.length := by
        rw [pset_length, if_pos hlookup]
      -- the chain continues from the grandparent
      cases m with
      | zero => exact absurd h.1 hroot
      | succ mm =>
        rcases h with ⟨h1, _⟩ | ⟨hne, hrec⟩
        · exact absurd h1 hroot
        · have hpres := reachesIn_pset_halve hroot
          have hgp : ∃ mg, mg ≤ mm ∧
              ReachesIn mg (pset p k (pget p (pget p k))) (pget p (pget p k)) r := by
            cases mm with
            | zero =>
              obtain ⟨hv, hr2⟩ := hrec
              refine ⟨0, le_refl _, ?_⟩
              rw [hv]
              exact ⟨by rw [pget_pset, if_neg hne]; exact hv, hr2⟩
            | succ mm2 =>
              rcases hrec with ⟨hv, hr2⟩ | ⟨hvne, hrec2⟩
              · refine ⟨0, by omega, ?_⟩
                rw [hv]
                exact ⟨by rw [pget_pset, if_neg hne]; exact hv, hr2⟩
              · exact ⟨mm2, by omega, hpres mm2 _ r hrec2⟩
          obtain ⟨mg, hmg, hgpr⟩ := hgp
          obtain ⟨ih1, ih2, ih3, ih4⟩ :=
            ih (pset p k (pget p (pget p k))) (pget p (pget p k)) r mg hgpr (by omega)
          rw [hfind]
          refine ⟨ih1, by rw [ih2, hlen2], ?_, ?_⟩
          · intro m2 x y hxy
            exact ih3 m2 x y (hpres m2 x y hxy)
          · intro hns
            exact ih4 (noSelf_pset hns hcyc)

/-- findP runs find with ample fuel. -/
theorem findP_spec (p : List (String × String)) (k r : String) (m : Nat)
    (h : ReachesIn m p k r) (hm : m ≤ p.length) :
    (findP p k).1 = r ∧
    (findP p k).2.length = p.length ∧
    (∀ (m2 : Nat) (x y : String), ReachesIn m2 p x y →
      ReachesIn m2 (findP p k).2 x y) ∧
    (NoSelfParent p → NoSelfParent (findP p k).2) :=
  findAux_spec (p.length + 1) p k r m h (by omega)

/-- A parent map on which every walk reaches a root within the map's
size.  Holds for the maps the compiler builds. -/
def GoodParent (p : List (String × String)) : Prop :=
  ∀ k, ∃ r m, m ≤ p.length ∧ ReachesIn m p k r

/-- After `_union(key_a, key_b)`, both keys reach the first key's root. -/
theorem unionParent_spec (p : List (String × String)) (keyA keyB ra rb : String)
    (ma mb : Nat) (hra : ReachesIn ma p keyA ra) (hma : ma ≤ p.length)
    (hrb : ReachesIn mb p keyB rb) (hmb : mb ≤ p.length) (hns : NoSelfParent p) :
    p.length ≤ (unionParent p keyA keyB).length ∧
    (∃ m1, m1 ≤ (unionParent p keyA keyB).length ∧
      ReachesIn m1 (unionParent p keyA keyB) keyA ra) ∧
    (∃ m2, m2 ≤ (unionParent p keyA keyB).length ∧
      ReachesIn m2 (unionParent p keyA keyB) keyB ra) := by
  obtain ⟨hA1, hA2, hA3, hA4⟩ := findP_spec p keyA ra ma hra hma
  have hrb1 := hA3 mb _ _ hrb
  obtain ⟨hB1, hB2, hB3, hB4⟩ :=
    findP_spec (findP p keyA).2 keyB rb mb hrb1 (by rw [hA2]; exact hmb)
  have hroot_ra_p : pget p ra = ra := reachesIn_root hra
  have hroot_rb_p : pget p rb = rb := reachesIn_root hrb
  have hra_fb : ReachesIn 0 (findP (findP p keyA).2 keyB).2 ra ra :=
    hB3 0 _ _ (hA3 0 _ _ ⟨hroot_ra_p, rfl⟩)
  have hrb_fb : ReachesIn 0 (findP (findP p keyA).2 keyB).2 rb rb :=
    hB3 0 _ _ (hA3 0 _ _ ⟨hroot_rb_p, rfl⟩)
  have hchainA : ReachesIn ma (findP (findP p keyA).2 keyB).2 keyA ra :=
    hB3 ma _ _ (hA3 ma _ _ hra)
  have hchainB : ReachesIn mb (findP (findP p keyA).2 keyB).2 keyB rb := hB3 mb _ _ hrb1
  have hnsfb : NoSelfParent (findP (findP p keyA).2 keyB).2 := hB4 (hA4 hns)
  have hlenfb : (findP (findP p keyA).2 keyB).2.length = p.length := by
    rw [hB2, hA2]
  simp only [unionParent, hA1, hB1]
  by_cases hc : ra = rb
  · rw [if_neg (by simp [hc])]
    refine ⟨le_of_eq hlenfb.symm, ⟨ma, ?_, hchainA⟩, ⟨mb, ?_, ?_⟩⟩
    · rw [hlenfb]; exact hma
    · rw [hlenfb]; exact hmb
    · rw [hc]; exact hchainB
  · rw [if_pos (by simp [hc])]
    have hlookup : List.lookup rb (findP (findP p keyA).2 keyB).2 = none :=
      lookup_none_of_root hnsfb hrb_fb.1
    have hlen3 : (pset (findP (findP p keyA).2 keyB).2 rb ra).length = p.length + 1 := by
      rw [pset_length, hlookup]
      simp [hlenfb]
    refine ⟨by omega, ⟨ma, by omega, ?_⟩, ⟨mb + 1, by omega, ?_⟩⟩
    · exact reachesIn_pset_avoid hrb_fb.1 ma keyA ra hchainA hc
    · exact reachesIn_pset_redirect hrb_fb.1 hra_fb.1 hc mb keyB hchainB

/-- get_var resolves through the union-find root: its result is the
root's assigned name, or the freshly minted one. -/
theorem getVar_at_root (s : VarEnv) (c : Column) (r : String) (m : Nat)
    (h : ReachesIn m s.parent (colKey c) r) (hm : m ≤ s.parent.length) :
    (s.getVar c).1 = (match s.map.lookup r with
      | some v => v
      | none => (mintVar s.map s.counter (columnToVariable c.name)).1) := by
  obtain ⟨h1, _, _, _⟩ := findP_spec s.parent (colKey c) r m h hm
  simp only [VarEnv.getVar, h1]
  cases hlk : s.map.lookup r with
  | some v => simp
  | none => simp

/-- C1 (amended): on a well-formed environment, once unify has merged two
columns, a get_var of either column resolves to the single name unify
settled on (the merged root's name).  Head items and body atoms are
emitted after the where/on conditions in compile_query, so they show this
shared name; text emitted before the unification (a condition literal, or
the pre-bound `X_i` of a conditional delete) is not rewritten. -/
theorem c1_unify_shared_variable (s : VarEnv) (a b : Column)
    (hgood : GoodParent s.parent) (hns : NoSelfParent s.parent) :
    ((s.unify a b).2.getVar a).1 = (s.unify a b).1 ∧
    ((s.unify a b).2.getVar b).1 = (s.unify a b).1 := by
  obtain ⟨ra, ma, hma, hra⟩ := hgood (colKey a)
  obtain ⟨rb, mb, hmb, hrb⟩ := hgood (colKey b)
  obtain ⟨hlen, ⟨m1, hm1, hc1⟩, ⟨m2, hm2, hc2⟩⟩ :=
    unionParent_spec s.parent (colKey a) (colKey b) ra rb ma mb hra hma hrb hmb hns
  obtain ⟨hF1, hF2, hF3, hF4⟩ :=
    findP_spec (unionParent s.parent (colKey a) (colKey b)) (colKey a) ra m1 hc1 hm1
  have hc1f := hF3 m1 _ _ hc1
  have hc2f := hF3 m2 _ _ hc2
  have hm1f : m1 ≤ (findP (unionParent s.parent (colKey a) (colKey b)) (colKey a)).2.length := by
    rw [hF2]; exact hm1
  have hm2f : m2 ≤ (findP (unionParent s.parent (colKey a) (colKey b)) (colKey a)).2.length := by
    rw [hF2]; exact hm2
  cases hlk : s.map.lookup ra with
  | some v =>
    have hu : s.unify a b =
        (v, { s with parent :=
          (findP (unionParent s.parent (colKey a) (colKey b)) (colKey a)).2 }) := by
      simp only [VarEnv.unify, hF1, hlk]
    rw [hu]
    constructor
    · rw [getVar_at_root { s with parent :=
        (findP (unionParent s.parent (colKey a) (colKey b)) (colKey a)).2 }
        a ra m1 hc1f hm1f]
      simp [hlk]
    · rw [getVar_at_root { s with parent :=
        (findP (unionParent s.parent (colKey a) (colKey b)) (colKey a)).2 }
        b ra m2 hc2f hm2f]
      simp [hlk]
  | none =>
    have hu : s.unify a b =
        ((mintVar s.map s.counter (columnToVariable a.name)).1,
          ⟨pset s.map ra (mintVar s.map s.counter (columnToVariable a.name)).1,
            (mintVar s.map s.counter (columnToVariable a.name)).2,
            (findP (unionParent s.parent (colKey a) (colKey b)) (colKey a)).2⟩) := by
      simp only [VarEnv.unify, hF1, hlk]
    rw [hu]
    constructor
    · rw [getVar_at_root
        ⟨pset s.map ra (mintVar s.map s.counter (columnToVariable a.name)).1,
          (mintVar s.map s.counter (columnToVariable a.name)).2,
          (findP (unionParent s.parent (colKey a) (colKey b)) (colKey a)).2⟩
        a ra m1 hc1f hm1f]
      simp [lookup_pset_self]
    · rw [getVar_at_root
        ⟨pset s.map ra (mintVar s.map s.counter (columnToVariable a.name)).1,
          (mintVar s.map s.counter (columnToVariable a.name)).2,
          (findP (unionParent s.parent (colKey a) (colKey b)) (colKey a)).2⟩
        b ra m2 hc2f hm2f]
      simp [lookup_pset_self]

/-- Witness for C1's amended theorem: a unify on the empty (trivially
well-formed) environment, with a get_var of each column afterwards. -/
theorem c1_unify_shared_variable_witness :
    ((VarEnv.empty.unify ⟨"e", "dept", none⟩ ⟨"d", "name", none⟩).2.getVar
      ⟨"e", "dept", none⟩).1 =
      (VarEnv.empty.unify ⟨"e", "dept", none⟩ ⟨"d", "name", none⟩).1 ∧
    ((VarEnv.empty.unify ⟨"e", "dept", none⟩ ⟨"d", "name", none⟩).2.getVar
      ⟨"d", "name", none⟩).1 =
      (VarEnv.empty.unify ⟨"e", "dept", none⟩ ⟨"d", "name", none⟩).1 := by
  have hgood : GoodParent VarEnv.empty.parent := by
    intro k
    exact ⟨k, 0, by simp [VarEnv.empty], ⟨rfl, rfl⟩⟩
  have hns : NoSelfParent VarEnv.empty.parent := by
    intro e he
    simp [VarEnv.empty] at he
  exact c1_unify_shared_variable VarEnv.empty ⟨"e", "dept", none⟩ ⟨"d", "name", none⟩ hgood hns

/-! ## Conditional delete (compiler.py compile_conditional_delete) -/

/-- Relation metadata as the query compiler consumes it. -/
structure RelationMeta where
  name : String
  columns : List String
deriving DecidableEq

/-- compile_conditional_delete: positional variables X0…, a pre-bound
environment, the relation itself as body atom, then the condition with
empty strings (join unifications) filtered out. -/
def compileConditionalDelete (rel : RelationMeta) (condition : BoolExpr) :
    Except String String :=
  let vars := condDeleteVars rel.columns.length
  let head := "-" ++ rel.name ++ "(" ++ String.intercalate ", " vars ++ ")"
  let env := condDeleteEnv rel.name rel.columns
  let bodyRel := rel.name ++ "(" ++ String.intercalate ", " vars ++ ")"
  match compileBoolExpr condition env with
  | .error e => .error e
  | .ok cr =>
    let condParts := cr.1.filter (fun part => part ≠ "")
    .ok (head ++ " <- " ++ String.intercalate ", " (bodyRel :: condParts))

/-- Two-column relation for the conditional-delete counterexample. -/
def empAB : RelationMeta := ⟨"employee", ["a", "b"]⟩

/-- First column of empAB. -/
def colA : Column := ⟨"employee", "a", none⟩

/-- Second column of empAB. -/
def colB : Column := ⟨"employee", "b", none⟩

/-- The condition `employee.a = employee.b`. -/
def condAB : BoolExpr := .comparison "=" (.column colA) (.column colB)

/-- Environment after compiling condAB inside the conditional delete. -/
def condABFinalEnv : VarEnv :=
  match compileBoolExpr condAB (condDeleteEnv "employee" ["a", "b"]) with
  | .ok r => r.2
  | .error _ => VarEnv.empty

/-- C1 counterexample: in a conditional delete the columns are pre-bound
to the positional variables X0, X1.  Compiling `employee.a = employee.b`
unifies the two columns (afterwards both resolve to X0 in the
environment), but the emitted text keeps X1 in column b's body-atom
argument position — the unified columns do not resolve to one variable
name in every position of the emitted text, and the equality constraint
is silently lost. -/
theorem c1_counterexample :
    compileConditionalDelete empAB condAB =
      .ok "-employee(X0, X1) <- employee(X0, X1)" ∧
    (condABFinalEnv.lookupVar colA).1 = some "X0" ∧
    (condABFinalEnv.lookupVar colB).1 = some "X0" ∧
    condDeleteVars empAB.columns.length = ["X0", "X1"] ∧
    ("X1" : String) ≠ "X0" := by
  exact ⟨rfl, rfl, rfl, rfl, by decide⟩

/-! ## Claim C2: OR handling -/

theorem compileBoolExpr_ok (b : BoolExpr) :
    ∀ env, hasOr b = false → ∃ out, compileBoolExpr b env = Except.ok out := by
  induction b with
  | comparison op l r => exact fun env _ => ⟨_, rfl⟩
  | and l r ihl ihr =>
    intro env h
    simp only [hasOr, Bool.or_eq_false_iff] at h
    obtain ⟨o1, h1⟩ := ihl env h.1
    obtain ⟨o2, h2⟩ := ihr o1.2 h.2
    refine ⟨(o1.1 ++ o2.1, o2.2), ?_⟩
    simp [compileBoolExpr, h1, h2, Bind.bind, Except.bind]
  | or l r ihl ihr =>
    intro env h
    simp [hasOr] at h
  | not o iho =>
    intro env h
    simp only [hasOr] at h
    obtain ⟨o1, h1⟩ := iho env h
    refine ⟨(["!(" ++ String.intercalate ", " o1.1 ++ ")"], o1.2), ?_⟩
    simp [compileBoolExpr, h1, Bind.bind, Except.bind]
  | inExpr c t => exact fun env _ => ⟨_, rfl⟩
  | negatedIn c t => exact fun env _ => ⟨_, rfl⟩
  | matchExpr rel binds neg => exact fun env _ => ⟨_, rfl⟩

theorem compileBoolExpr_error (b : BoolExpr) :
    ∀ env, hasOr b = true → ∃ e, compileBoolExpr b env = Except.error e := by
  induction b with
  | comparison op l r => intro env h; simp [hasOr] at h
  | and l r ihl ihr =>
    intro env h
    simp only [hasOr, Bool.or_eq_true] at h
    cases hl : hasOr l with
    | true =>
      obtain ⟨e, he⟩ := ihl env hl
      refine ⟨e, ?_⟩
      simp [compileBoolExpr, he, Bind.bind, Except.bind]
    | false =>
      have hr : hasOr r = true := by
        rcases h with h | h
        · rw [hl] at h; cases h
        · exact h
      obtain ⟨o1, h1⟩ := compileBoolExpr_ok l env hl
      obtain ⟨e, he⟩ := ihr o1.2 hr
      refine ⟨e, ?_⟩
      simp [compileBoolExpr, h1, he, Bind.bind, Except.bind]
  | or l r ihl ihr => exact fun env _ => ⟨_, rfl⟩
  | not o iho =>
    intro env h
    simp only [hasOr] at h
    obtain ⟨e, he⟩ := iho env h
    refine ⟨e, ?_⟩
    simp [compileBoolExpr, he, Bind.bind, Except.bind]
  | inExpr c t => intro env h; simp [hasOr] at h
  | negatedIn c t => intro env h; simp [hasOr] at h
  | matchExpr rel binds neg => intro env h; simp [hasOr] at h

theorem compileOrBranches_ok (b : BoolExpr) :
    ∀ env, orLeavesOrFree b = true →
      ∃ res, compileOrBranches b env = Except.ok res ∧
        res.1.length = orSpineCount b + 1 := by
  induction b with
  | or l r ihl ihr =>
    intro env h
    simp only [orLeavesOrFree, Bool.and_eq_true] at h
    obtain ⟨r1, h1, hl1⟩ := ihl env h.1
    obtain ⟨r2, h2, hl2⟩ := ihr r1.2 h.2
    refine ⟨(r1.1 ++ r2.1, r2.2), ?_, ?_⟩
    · simp [compileOrBranches, h1, h2, Bind.bind, Except.bind]
    · simp only [List.length_append, orSpineCount]
      omega
  | comparison op l r =>
    intro env h
    simp only [orLeavesOrFree, Bool.not_eq_true'] at h
    obtain ⟨out, hout⟩ := compileBoolExpr_ok (.comparison op l r) env h
    exact ⟨([out.1], out.2), by simp [compileOrBranches, hout, Bind.bind, Except.bind], by simp [orSpineCount]⟩
  | and l r _ _ =>
    intro env h
    simp only [orLeavesOrFree, Bool.not_eq_true'] at h
    obtain ⟨out, hout⟩ := compileBoolExpr_ok (.and l r) env h
    exact ⟨([out.1], out.2), by simp [compileOrBranches, hout, Bind.bind, Except.bind], by simp [orSpineCount]⟩
  | not o _ =>
    intro env h
    simp only [orLeavesOrFree, Bool.not_eq_true'] at h
    obtain ⟨out, hout⟩ := compileBoolExpr_ok (.not o) env h
    exact ⟨([out.1], out.2), by simp [compileOrBranches, hout, Bind.bind, Except.bind], by simp [orSpineCount]⟩
  | inExpr c t =>
    intro env h
    simp only [orLeavesOrFree, Bool.not_eq_true'] at h
    obtain ⟨out, hout⟩ := compileBoolExpr_ok (.inExpr c t) env h
    exact ⟨([out.1], out.2), by simp [compileOrBranches, hout, Bind.bind, Except.bind], by simp [orSpineCount]⟩
  | negatedIn c t =>
    intro env h
    simp only [orLeavesOrFree, Bool.not_eq_true'] at h
    obtain ⟨out, hout⟩ := compileBoolExpr_ok (.negatedIn c t) env h
    exact ⟨([out.1], out.2), by simp [compileOrBranches, hout, Bind.bind, Except.bind], by simp [orSpineCount]⟩
  | matchExpr rel binds neg =>
    intro env h
    simp only [orLeavesOrFree, Bool.not_eq_true'] at h
    obtain ⟨out, hout⟩ := compileBoolExpr_ok (.matchExpr rel binds neg) env h
    exact ⟨([out.1], out.2), by simp [compileOrBranches, hout, Bind.bind, Except.bind], by simp [orSpineCount]⟩

/-- C2 (amended): the single-branch compiler succeeds on every Or-free
condition and raises on every condition containing an Or; the OR-splitter
succeeds when every leaf of the root Or-spine is Or-free and then yields
k+1 branch lists, where k is the number of Or nodes on the root spine
(on a leaf with a nested Or the splitter raises too, and the branch
count is the leaf count k+1, not 2^k). -/
theorem c2_or_handling :
    (∀ (b : BoolExpr) (env : VarEnv), hasOr b = false →
      ∃ out, compileBoolExpr b env = Except.ok out) ∧
    (∀ (b : BoolExpr) (env : VarEnv), hasOr b = true →
      ∃ e, compileBoolExpr b env = Except.error e) ∧
    (∀ (b : BoolExpr) (env : VarEnv), orLeavesOrFree b = true →
      ∃ res, compileOrBranches b env = Except.ok res ∧
        res.1.length = orSpineCount b + 1) :=
  ⟨compileBoolExpr_ok, compileBoolExpr_error, compileOrBranches_ok⟩

/-- Success projection of a compilation result. -/
def isOkE {ε α : Type} : Except ε α → Bool
  | .ok _ => true
  | .error _ => false

/-- Example comparison 1 < 2. -/
def exC1 : BoolExpr := .comparison "<" (.literal (.int 1)) (.literal (.int 2))

/-- Example comparison 3 < 4. -/
def exC2 : BoolExpr := .comparison "<" (.literal (.int 3)) (.literal (.int 4))

/-- Example comparison 5 < 6. -/
def exC3 : BoolExpr := .comparison "<" (.literal (.int 5)) (.literal (.int 6))

/-- Or of an Or and a leaf: two spine Or nodes, three leaves. -/
def exOr : BoolExpr := .or (.or exC1 exC2) exC3

/-- Witness for C2's amended theorem at concrete conditions. -/
theorem c2_or_handling_witness :
    isOkE (compileBoolExpr exC1 VarEnv.empty) = true ∧
    isOkE (compileBoolExpr (.or exC1 exC2) VarEnv.empty) = false ∧
    isOkE (compileOrBranches (.or exC1 exC2) VarEnv.empty) = true := by
  obtain ⟨h1, h2, h3⟩ := c2_or_handling
  obtain ⟨o1, ho1⟩ := h1 exC1 VarEnv.empty rfl
  obtain ⟨e2, he2⟩ := h2 (.or exC1 exC2) VarEnv.empty rfl
  obtain ⟨r3, hr3, _⟩ := h3 (.or exC1 exC2) VarEnv.empty rfl
  exact ⟨by rw [ho1]; rfl, by rw [he2]; rfl, by rw [hr3]; rfl⟩

/-- C2 counterexample: `(c1 ∨ c2) ∨ c3` has k = 2 Or nodes on its root
spine and the splitter yields 3 = k+1 branches, not 2^k = 4; and a
condition containing an Or below an And makes compile_or_branches raise
instead of succeeding. -/
theorem c2_counterexample :
    orSpineCount exOr = 2 ∧
    compileOrBranches exOr VarEnv.empty =
      .ok ([["1 < 2"], ["3 < 4"], ["5 < 6"]], VarEnv.empty) ∧
    (2 : Nat) ^ orSpineCount exOr ≠ 3 ∧
    compileOrBranches (.and (.or exC1 exC2) exC3) VarEnv.empty =
      .error "OR conditions require query splitting. Use compile_or_branches() instead." := by
  exact ⟨rfl, rfl, by decide, rfl⟩

/-! ## Query compilation (compiler.py compile_query)

The select tuple holds relation classes and expressions; the `relations`
parameter holds aliased references or classes.  The source's dead
`selected_by_rel` accumulator is omitted. -/

/-- Items of the select tuple: a relation class or an expression. -/
inductive SelectItem where
  | rel (r : RelationMeta)
  | expr (e : Expr)

/-- Items of the `relations` parameter: an aliased RelationRef or a class. -/
inductive RelationsItem where
  | ref (relationName : String) (cls : RelationMeta) (al : Option String)
  | cls (r : RelationMeta)

/-- _process_join_condition: unify `Column = Column` equalities down the
And spine; emit nothing. -/
def processJoinCondition : BoolExpr → VarEnv → VarEnv
  | .comparison op l r, env =>
    match op, l, r with
    | "=", .column a, .column b => (env.unify a b).2
    | _, _, _ => env
  | .and l r, env => processJoinCondition r (processJoinCondition l env)
  | _, env => env

/-- Does a select item hold an aggregation expression? -/
def isAggSelect : SelectItem → Bool
  | .expr (.agg _ _ _ _ _ _) => true
  | _ => false

/-- Is an expression an aggregation node? -/
def isAggExpr : Expr → Bool
  | .agg _ _ _ _ _ _ => true
  | _ => false

/-- get_var over a relation's columns in order. -/
def getVarsForCols (rn : String) : List String → Option String → VarEnv →
    List String × VarEnv
  | [], _, env => ([], env)
  | col :: cols, al, env =>
    let r := env.getVar ⟨rn, col, al⟩
    let rest := getVarsForCols rn cols al r.2
    (r.1 :: rest.1, rest.2)

/-- The full-relation loop: expand every column into the head and add the
relation to the body set when missing. -/
def addFullRelations : List (String × RelationMeta × Option String) →
    List String → List (String × RelationMeta × Option String) → VarEnv →
    List String × List (String × RelationMeta × Option String) × VarEnv
  | [], headParts, allRels, env => (headParts, allRels, env)
  | (rn, cls, al) :: rest, headParts, allRels, env =>
    let r := getVarsForCols rn cls.columns al env
    let allRels2 :=
      if allRels.any (fun t => t.1 = rn ∧ t.2.2 = al) then allRels
      else allRels ++ [(rn, cls, al)]
    addFullRelations rest (headParts ++ r.1) allRels2 r.2

/-- The individually selected columns loop. -/
def addSelectedColumns : List SelectItem → List String → VarEnv →
    List String × VarEnv
  | [], hp, env => (hp, env)
  | .expr (.column c) :: rest, hp, env =>
    let r := env.getVar c
    addSelectedColumns rest (hp ++ [r.1]) r.2
  | _ :: rest, hp, env => addSelectedColumns rest hp env

/-- The computed columns loop. -/
def addComputed : List (String × Expr) → List String → VarEnv →
    List String × VarEnv
  | [], hp, env => (hp, env)
  | (_, e) :: rest, hp, env =>
    let r := compileExpr e env
    addComputed rest (hp ++ [r.1]) r.2

/-- Replace the first occurrence of `target` in the head. -/
def replaceFirst : List String → String → String → List String
  | [], _, _ => []
  | h :: t, target, repl => if h = target then repl :: t else h :: replaceFirst t target repl

/-- The order_by handling: decorate the matching head variable. -/
def applyOrderBy (orderBy : Option Expr) (hp : List String) (env : VarEnv) :
    List String × VarEnv :=
  match orderBy with
  | some (.orderedColumn c desc) =>
    let r := compileExpr c env
    let suffix := if desc then ":desc" else ":asc"
    (replaceFirst hp r.1 (r.1 ++ suffix), r.2)
  | some (.column c) =>
    let r := env.getVar c
    (replaceFirst hp r.1 (r.1 ++ ":asc"), r.2)
  | _ => (hp, env)

/-- lookup over a relation's columns, `_` for unbound positions. -/
def lookupVarsForCols (rn : String) : List String → Option String → VarEnv →
    List String × VarEnv
  | [], _, env => ([], env)
  | col :: cols, al, env =>
    let lr := env.lookupVar ⟨rn, col, al⟩
    let part := match lr.1 with
      | some v => v
      | none => "_"
    let rest := lookupVarsForCols rn cols al lr.2
    (part :: rest.1, rest.2)

/-- Body atoms `name(p0, p1, …)` for every involved relation. -/
def buildBodyAtoms : List (String × RelationMeta × Option String) → VarEnv →
    List String × VarEnv
  | [], env => ([], env)
  | (rn, cls, al) :: rest, env =>
    let r := lookupVarsForCols rn cls.columns al env
    let atoms := buildBodyAtoms rest r.2
    ((rn ++ "(" ++ String.intercalate ", " r.1 ++ ")") :: atoms.1, atoms.2)

/-- The `limit(N)` / `limit(N, M)` literal. -/
def limitLiteral (n : Int) (offset : Option Int) : String :=
  match offset with
  | some off => "limit(" ++ intRepr n ++ ", " ++ intRepr off ++ ")"
  | none => "limit(" ++ intRepr n ++ ")"

/-- Head construction of the simple (non-aggregate) path: full relations,
selected columns, computed columns, order_by decoration. -/
def simpleHead (select : List SelectItem)
    (allRelations : List (String × RelationMeta × Option String))
    (orderBy : Option Expr) (computed : List (String × Expr)) (env : VarEnv) :
    String × List (String × RelationMeta × Option String) × VarEnv :=
  let fullRelations := select.filterMap (fun s =>
    match s with
    | .rel r => some (r.name, r, (none : Option String))
    | _ => none)
  let r1 := addFullRelations fullRelations [] allRelations env
  let r2 := addSelectedColumns select r1.1 r1.2.2
  let r3 := addComputed computed r2.1 r2.2
  let r4 := applyOrderBy orderBy r3.1 r3.2
  (String.intercalate ", " r4.1, r1.2.1, r4.2)

/-- _compile_agg_query's select loop: grouping keys vs aggregations. -/
def aggHeadLoop : List SelectItem → List String → List String → VarEnv →
    List String × List String × VarEnv
  | [], hp, ap, env => (hp, ap, env)
  | .expr (.agg f c p ps o d) :: rest, hp, ap, env =>
    let r := compileExpr (.agg f c p ps o d) env
    aggHeadLoop rest hp (ap ++ [r.1]) r.2
  | .expr (.column c) :: rest, hp, ap, env =>
    let r := env.getVar c
    aggHeadLoop rest (hp ++ [r.1]) ap r.2
  | .expr _ :: rest, hp, ap, env => aggHeadLoop rest hp ap env
  | .rel cls :: rest, hp, ap, env =>
    let r := getVarsForCols cls.name cls.columns none env
    aggHeadLoop rest (hp ++ r.1) ap r.2

/-- _compile_agg_query's computed loop. -/
def aggComputedLoop : List (String × Expr) → List String → List String → VarEnv →
    List String × List String × VarEnv
  | [], hp, ap, env => (hp, ap, env)
  | (_, e) :: rest, hp, ap, env =>
    let r := compileExpr e env
    if isAggExpr e then aggComputedLoop rest hp (ap ++ [r.1]) r.2
    else aggComputedLoop rest (hp ++ [r.1]) ap r.2

/-- _compile_agg_query: grouped head, one query string; the or_branches
and order_by parameters are accepted and ignored, as in the source. -/
def compileAggQuery (select : List SelectItem) (env : VarEnv)
    (allRelations : List (String × RelationMeta × Option String))
    (whereParts : List String) (_orBranches : Option (List (List String)))
    (_orderBy : Option Expr) (limit offset : Option Int)
    (computed : List (String × Expr)) : String :=
  let r1 := aggHeadLoop select [] [] env
  let r2 := aggComputedLoop computed r1.1 r1.2.1 r1.2.2
  let atoms := buildBodyAtoms allRelations r2.2.2
  let allBody := atoms.1 ++ whereParts ++
    (match limit with
     | some n => [limitLiteral n offset]
     | none => [])
  let headStr := String.intercalate ", " (r2.1 ++ r2.2.1)
  if allBody = [] then "?" ++ headStr
  else "?" ++ headStr ++ " <- " ++ String.intercalate ", " allBody

/-- Everything after the where-classification of compile_query: dispatch
to the aggregate path or emit the simple query / OR-branch queries. -/
def compileQueryCore (select : List SelectItem)
    (allRelations : List (String × RelationMeta × Option String))
    (whereParts : List String) (orBranches : Option (List (List String)))
    (orderBy : Option Expr) (limit offset : Option Int)
    (computed : List (String × Expr)) (env : VarEnv) :
    Except String (String ⊕ List String) :=
  if select.any isAggSelect || computed.any (fun c => isAggExpr c.2) then
    .ok (.inl (compileAggQuery select env allRelations whereParts orBranches
      orderBy limit offset computed))
  else
    let sh := simpleHead select allRelations orderBy computed env
    let ba := buildBodyAtoms sh.2.1 sh.2.2
    match orBranches with
    | some branches =>
      .ok (.inr (branches.map (fun bp =>
        let bp2 := bp.filter (fun part => part ≠ "")
        let branchBody := ba.1 ++ bp2 ++
          (match limit with
           | some n => [limitLiteral n offset]
           | none => [])
        "?" ++ sh.1 ++ " <- " ++ String.intercalate ", " branchBody)))
    | none =>
      let allBody := ba.1 ++ whereParts ++
        (match limit with
         | some n => [limitLiteral n offset]
         | none => [])
      if allBody = [] then .ok (.inl ("?" ++ sh.1))
      else .ok (.inl ("?" ++ sh.1 ++ " <- " ++ String.intercalate ", " allBody))

/-- compile_query: relations, join conditions, where classification, then
the core emission. -/
def compileQuery (select : List SelectItem) (relations : List RelationsItem)
    (onCondition whereCondition : Option BoolExpr) (orderBy : Option Expr)
    (limit offset : Option Int) (computed : List (String × Expr)) :
    Except String (String ⊕ List String) :=
  let allRelations : List (String × RelationMeta × Option String) :=
    relations.map (fun r =>
      match r with
      | .ref nm cls al => (nm, cls, al)
      | .cls cls => (cls.name, cls, none))
  let env1 := match onCondition with
    | some c => processJoinCondition c VarEnv.empty
    | none => VarEnv.empty
  match whereCondition with
  | some w =>
    if hasOr w then
      match compileOrBranches w env1 with
      | .error e => .error e
      | .ok ob =>
        compileQueryCore select allRelations [] (some ob.1) orderBy limit offset computed ob.2
    else
      match compileBoolExpr w env1 with
      | .error e => .error e
      | .ok wp =>
        compileQueryCore select allRelations (wp.1.filter (fun part => part ≠ ""))
          none orderBy limit offset computed wp.2
  | none => compileQueryCore select allRelations [] none orderBy limit offset computed env1

theorem intercalate_go_last (s l : String) :
    ∀ (as : List String) (acc : String),
      ∃ pre, String.intercalate.go acc s (as ++ [l]) = pre ++ l := by
  intro as
  induction as with
  | nil =>
    intro acc
    exact ⟨acc ++ s, rfl⟩
  | cons a rest ih =>
    intro acc
    exact ih (acc ++ s ++ a)

theorem intercalate_last (sep l : String) (xs : List String) :
    ∃ pre, String.intercalate sep (xs ++ [l]) = pre ++ l := by
  cases xs with
  | nil =>
    refine ⟨"", ?_⟩
    show String.intercalate.go l sep [] = "" ++ l
    simp [String.intercalate.go]
  | cons x rest =>
    exact intercalate_go_last sep l rest x

theorem compileQueryCore_or (select : List SelectItem)
    (allRelations : List (String × RelationMeta × Option String))
    (branches : List (List String)) (orderBy : Option Expr) (n : Int)
    (offset : Option Int) (computed : List (String × Expr)) (env : VarEnv)
    (hnoagg : (select.any isAggSelect || computed.any (fun c => isAggExpr c.2)) = false) :
    ∃ hd atoms,
      compileQueryCore select allRelations [] (some branches) orderBy (some n)
        offset computed env =
      .ok (.inr (branches.map (fun bp =>
        "?" ++ hd ++ " <- " ++ String.intercalate ", "
          (atoms ++ bp.filter (fun part => part ≠ "") ++ [limitLiteral n offset])))) := by
  rcases hsh : simpleHead select allRelations orderBy computed env with ⟨hd, allRels2, env5⟩
  rcases hba : buildBodyAtoms allRels2 env5 with ⟨atoms, env6⟩
  refine ⟨hd, atoms, ?_⟩
  simp only [compileQueryCore, hnoagg, Bool.false_eq_true, if_false, hsh, hba]

/-- C10: when the where-condition contains an Or (with Or-free leaves so
the splitter succeeds) and a limit is configured, a non-aggregate
compile_query returns a list of branch queries that all start with the
same head and all end with the same limit literal. -/
theorem c10_limit_in_every_branch (select : List SelectItem)
    (relations : List RelationsItem) (onCondition : Option BoolExpr)
    (w : BoolExpr) (orderBy : Option Expr) (n : Int) (offset : Option Int)
    (computed : List (String × Expr))
    (hor : hasOr w = true) (hleaves : orLeavesOrFree w = true)
    (hnoagg : (select.any isAggSelect || computed.any (fun c => isAggExpr c.2)) = false) :
    ∃ qs hd,
      compileQuery select relations onCondition (some w) orderBy (some n) offset computed =
        .ok (.inr qs) ∧
      (∀ q ∈ qs, ∃ tl, q = "?" ++ hd ++ " <- " ++ tl) ∧
      (∀ q ∈ qs, ∃ pre, q = pre ++ limitLiteral n offset) := by
  obtain ⟨ob, hob, _⟩ := compileOrBranches_ok w
    (match onCondition with
     | some c => processJoinCondition c VarEnv.empty
     | none => VarEnv.empty) hleaves
  obtain ⟨hd, atoms, hcore⟩ := compileQueryCore_or select
    (relations.map (fun r =>
      match r with
      | .ref nm cls al => (nm, cls, al)
      | .cls cls => (cls.name, cls, none)))
    ob.1 orderBy n offset computed ob.2 hnoagg
  refine ⟨ob.1.map (fun bp =>
      "?" ++ hd ++ " <- " ++ String.intercalate ", "
        (atoms ++ bp.filter (fun part => part ≠ "") ++ [limitLiteral n offset])),
    hd, ?_, ?_, ?_⟩
  · show compileQuery select relations onCondition (some w) orderBy (some n) offset computed = _
    simp only [compileQuery, hor, if_true, hob]
    exact hcore
  · intro q hq
    rw [List.mem_map] at hq
    obtain ⟨bp, _, hbp⟩ := hq
    exact ⟨_, hbp.symm⟩
  · intro q hq
    rw [List.mem_map] at hq
    obtain ⟨bp, _, hbp⟩ := hq
    obtain ⟨pre, hpre⟩ := intercalate_last ", " (limitLiteral n offset)
      (atoms ++ bp.filter (fun part => part ≠ ""))
    refine ⟨"?" ++ hd ++ " <- " ++ pre, ?_⟩
    rw [← hbp]
    show "?" ++ hd ++ " <- " ++ String.intercalate ", "
        (atoms ++ bp.filter (fun part => part ≠ "") ++ [limitLiteral n offset]) =
      "?" ++ hd ++ " <- " ++ pre ++ limitLiteral n offset
    rw [hpre]
    simp [String.append_assoc]

/-- Two-column relation for the C10 witness. -/
def employeeQ : RelationMeta := ⟨"employee", ["id", "name"]⟩

/-- Witness for C10 at a concrete query: full-relation select, an OR of
two literal comparisons, limit 10. -/
theorem c10_limit_in_every_branch_witness :
    isOkE (compileQuery [.rel employeeQ] [] none (some (.or exC1 exC2)) none
      (some 10) none []) = true ∧
    compileQuery [.rel employeeQ] [] none (some (.or exC1 exC2)) none
      (some 10) none [] =
      .ok (.inr ["?Id, Name <- employee(Id, Name), 1 < 2, limit(10)",
                 "?Id, Name <- employee(Id, Name), 3 < 4, limit(10)"]) := by
  obtain ⟨qs, hd, hq, _, _⟩ := c10_limit_in_every_branch [.rel employeeQ] [] none
    (.or exC1 exC2) none 10 none [] rfl rfl rfl
  exact ⟨by rw [hq]; rfl, by rfl⟩

end IL
